import Mathlib

/-!
# Image quantization (`quantization/Quantize.cpp`)

A shallow embedding of the three functions of `Quantize.cpp`:

* `Uniform`  : per-pixel division of every channel value by `256.0 / quantization_levels`
  in double precision, narrowed back to an unsigned 8-bit value;
* `Igs`      : improved grey scale quantization, an integer division with a running remainder;
* `ipcv.Quantize` : allocation of the destination followed by a dispatch on the variant.

Undefined behaviour of the C++ program (integer or floating division by zero, a floating to
integer conversion whose value does not fit, a store outside the destination) is modelled by
the result `none`.

The source is passed by value. This also covers a call in which source and destination are the
same matrix: both quantizers read a cell only in the iteration that then writes it, so no read
ever sees a value written earlier in the same call.
-/

/-! ## Images -/

/-- A `cv::Mat` as the program uses it: a number of rows and of columns, a pixel type tag
(`type()`), and one unsigned 8-bit value per row, column and channel. -/
structure Mat where
  rows : Nat
  cols : Nat
  type : Nat
  data : Nat → Nat → Nat → Fin 256

/-- The OpenCV type tag of a 3-channel unsigned 8-bit image. -/
def CV_8UC3 : Nat := 16

/-- Read access `m.at<cv::Vec3b>(row, col)[channel]`. -/
def Mat.read (m : Mat) (row col channel : Nat) : Fin 256 :=
  m.data row col channel

/-- The effect of a store on the memory of a matrix: the cell takes the value `v`; every other
cell, the shape and the type are left as they are. -/
def Mat.update (m : Mat) (row col channel : Nat) (v : Fin 256) : Mat :=
  { m with
    data := fun r c ch => if r = row ∧ c = col ∧ ch = channel then v else m.data r c ch }

/-- Write access `m.at<cv::Vec3b>(row, col)[channel] = v`. `at` does not check its indices in a
release build, so a store outside the matrix is undefined behaviour and yields `none`. -/
def Mat.write (m : Mat) (row col channel : Nat) (v : Fin 256) : Option Mat :=
  if row < m.rows ∧ col < m.cols ∧ channel < 3 then some (m.update row col channel v)
  else none

/-- The call `m.create(size, type)`: a matrix that already has the requested shape and type is
returned as it is, otherwise a new buffer is allocated. `fresh` stands for the (unspecified)
contents of newly allocated memory. -/
def Mat.create (m : Mat) (rows cols type : Nat) (fresh : Nat → Nat → Nat → Fin 256) : Mat :=
  if m.rows = rows ∧ m.cols = cols ∧ m.type = type then m
  else { rows := rows, cols := cols, type := type, data := fresh }

/-- Conversion of an `int` to `unsigned char` (reduction modulo 256). -/
def toUchar (i : Int) : Fin 256 :=
  ⟨(i % 256).toNat, by omega⟩

/-! ## Double precision arithmetic

The finite binary64 values the program can produce, with round-to-nearest-even division.
A value is `(-1)^neg * mant * 2^(exp - 52)`, where either `mant = 0` or
`2^52 ≤ mant < 2^53`. All magnitudes that occur in `Uniform` for a 32-bit
`quantization_levels` lie between `2^-23` and `2^39`, far inside the normal range of binary64,
so exponent overflow, subnormals, infinities and NaN are not represented. -/

/-- A finite double: sign, 53-bit significand, binary exponent. -/
structure Dbl where
  neg : Bool
  mant : Nat
  exp : Int
  deriving DecidableEq, Repr

/-- The nearest integer to `a / b`, a tie going to the even neighbour. -/
def roundHalfEven (a b : Nat) : Nat :=
  let q := a / b
  let r := a % b
  if 2 * r < b then q
  else if b < 2 * r then q + 1
  else if q % 2 = 0 then q else q + 1

/-- Shift a nonzero significand below `2^53` left until its leading bit is bit 52. -/
def Dbl.normalize (m : Nat) (e : Int) : Nat × Int :=
  [32, 16, 8, 4, 2, 1].foldl
    (fun (p : Nat × Int) (s : Nat) =>
      if p.1 < 2 ^ (53 - s) then (p.1 * 2 ^ s, p.2 - s) else p)
    (m, e)

/-- Conversion of an `int` to `double`; exact, since a 32-bit integer (the type of
`quantization_levels` and of a promoted channel value) has fewer than 53 bits. -/
def Dbl.ofInt (i : Int) : Dbl :=
  if i = 0 then ⟨false, 0, 0⟩
  else
    let p := Dbl.normalize i.natAbs 52
    ⟨decide (i < 0), p.1, p.2⟩

/-- Division `a / b` of doubles, rounded to nearest, ties to even. A zero divisor is undefined
behaviour and yields `none`. -/
def Dbl.div (a b : Dbl) : Option Dbl :=
  if b.mant = 0 then none
  else if a.mant = 0 then some ⟨a.neg != b.neg, 0, 0⟩
  else
    let k : Nat := if a.mant < b.mant then 1 else 0
    let q := roundHalfEven (a.mant * 2 ^ (52 + k)) b.mant
    if q = 2 ^ 53 then some ⟨a.neg != b.neg, 2 ^ 52, a.exp - b.exp - k + 1⟩
    else some ⟨a.neg != b.neg, q, a.exp - b.exp - k⟩

/-- Conversion of a `double` to `unsigned char`: the fractional part is discarded; a truncated
value outside `0..255` is undefined behaviour and yields `none`. -/
def Dbl.toUchar (x : Dbl) : Option (Fin 256) :=
  let t := x.mant * 2 ^ x.exp.toNat / 2 ^ (52 + (-x.exp).toNat)
  if t = 0 then some 0
  else if x.neg then none
  else if h : t < 256 then some ⟨t, h⟩ else none

/-- A double in normal form: a zero significand or one with its leading bit at bit 52. -/
def Dbl.Normal (x : Dbl) : Prop :=
  x.mant = 0 ∨ (2 ^ 52 ≤ x.mant ∧ x.mant < 2 ^ 53)

instance (x : Dbl) : Decidable x.Normal :=
  inferInstanceAs (Decidable (x.mant = 0 ∨ (2 ^ 52 ≤ x.mant ∧ x.mant < 2 ^ 53)))

/-- The rational number a double stands for. -/
def Dbl.toRat (x : Dbl) : ℚ :=
  (if x.neg then -1 else 1) * (x.mant : ℚ) * (2 : ℚ) ^ (x.exp - 52)

/-! ## Uniform quantization -/

/-- The body of the loops of `Uniform` for one channel value:
`quantized_val = src_val / divisor` in double precision, then the narrowing store. -/
def uniformPixel (divisor : Dbl) (src_val : Fin 256) : Option (Fin 256) := do
  let quantized_val ← Dbl.div (Dbl.ofInt src_val.val) divisor
  quantized_val.toUchar

/-- The function `Uniform`: `divisor = 256.0 / quantization_levels`, then the three nested loops
over channel, row and column. -/
def Uniform (src : Mat) (quantization_levels : Int) (dst : Mat) : Option Mat := do
  let divisor ← Dbl.div (Dbl.ofInt 256) (Dbl.ofInt quantization_levels)
  (List.range 3).foldlM (fun dst channel =>
    (List.range src.rows).foldlM (fun dst row =>
      (List.range src.cols).foldlM (fun dst col =>
        (uniformPixel divisor (src.read row col channel)).bind
          (fun quantized_val => dst.write row col channel quantized_val)) dst) dst) dst

/-! ## Improved grey scale quantization -/

/-- The arithmetic of one iteration of the loops of `Igs`: the remainder is added, the sum is
clamped to 255, and the quotient and the remainder of the division by `divisor` are returned
(in this order). C++ integer division truncates; a zero divisor is undefined behaviour.
No value exceeds `255 + 256`, so 32-bit overflow cannot occur. -/
def igsPixel (divisor remainder : Int) (v : Fin 256) : Option (Int × Int) :=
  let src_val : Int := (v.val : Int) + remainder
  let src_val : Int := if src_val > 255 then 255 else src_val
  if divisor = 0 then none
  else some (Int.tdiv src_val divisor, Int.tmod src_val divisor)

/-- One iteration of the loops of `Igs` on the state made of `remainder` and `dst`. -/
def igsStep (src : Mat) (divisor : Int) (channel row col : Nat) (st : Int × Mat) :
    Option (Int × Mat) :=
  (igsPixel divisor st.1 (src.read row col channel)).bind
    (fun qr => (st.2.write row col channel (toUchar qr.1)).map (fun d => (qr.2, d)))

/-- The function `Igs`: `divisor = 256 / quantization_levels` (integer division),
`remainder = 0` once before the loops, then the three nested loops over channel, row and
column. -/
def Igs (src : Mat) (quantization_levels : Int) (dst : Mat) : Option Mat :=
  if quantization_levels = 0 then none
  else
    let divisor : Int := Int.tdiv 256 quantization_levels
    let remainder : Int := 0
    ((List.range 3).foldlM (fun st channel =>
      (List.range src.rows).foldlM (fun st row =>
        (List.range src.cols).foldlM (fun st col =>
          igsStep src divisor channel row col st) st) st) (remainder, dst)).map Prod.snd

/-! ## The dispatcher -/

/-- Modelled from the spec: the enumeration `QuantizationType` is declared in `Quantize.h`,
which is not among the sources. The spec gives it exactly two defined values, uniform and
improved grey scale; `unsupported` stands for any other value of the enumeration type. -/
inductive QuantizationType where
  | uniform
  | igs
  | unsupported (tag : Nat)
  deriving DecidableEq, Repr

/-- What a completed call of `ipcv::Quantize` leaves behind: the returned flag, the destination
and the lines written to `cerr`. -/
structure QuantizeResult where
  ok : Bool
  dst : Mat
  cerr : List String

namespace ipcv

/-- The function `ipcv::Quantize`: `dst.create(src.size(), src.type())`, then the `switch`. -/
def Quantize (src : Mat) (quantization_levels : Int) (quantization_type : QuantizationType)
    (dst : Mat) (fresh : Nat → Nat → Nat → Fin 256) : Option QuantizeResult :=
  let dst := dst.create src.rows src.cols src.type fresh
  match quantization_type with
  | QuantizationType.uniform =>
      (Uniform src quantization_levels dst).map (fun d => ⟨true, d, []⟩)
  | QuantizationType.igs =>
      (Igs src quantization_levels dst).map (fun d => ⟨true, d, []⟩)
  | QuantizationType.unsupported _ =>
      some ⟨false, dst, ["Specified quantization type is unsupported"]⟩

end ipcv

/-! ## Reading images back -/

/-- The positions of a `rows` by `cols` image in row-major order. -/
def rowMajor (rows cols : Nat) : List (Nat × Nat) :=
  (List.range rows).flatMap fun row => (List.range cols).map fun col => (row, col)

/-- The cells `(channel, row, col)` in the order in which the loops of `Uniform` and `Igs`
visit them. -/
def scanOrder (rows cols : Nat) : List (Nat × Nat × Nat) :=
  (List.range 3).flatMap fun channel =>
    (List.range rows).flatMap fun row => (List.range cols).map fun col => (channel, row, col)

/-- The values of one channel of the top-left `rows` by `cols` part of an image, in row-major
order. -/
def channelValues (rows cols : Nat) (m : Mat) (channel : Nat) : List (Fin 256) :=
  (rowMajor rows cols).map fun p => m.read p.1 p.2 channel

/-- A 1 by 1 image holding the given pixel. -/
def onePixel (c0 c1 c2 : Fin 256) : Mat :=
  { rows := 1, cols := 1, type := CV_8UC3,
    data := fun _ _ ch => if ch = 0 then c0 else if ch = 1 then c1 else c2 }

/-- An image of the given shape whose three channels all hold the same row-major values. -/
def greyImage (rows cols : Nat) (vals : List (Fin 256)) : Mat :=
  { rows := rows, cols := cols, type := CV_8UC3,
    data := fun r c _ => vals.getD (r * cols + c) 0 }

/-- An empty matrix, as a default constructed `cv::Mat`. -/
def emptyMat : Mat :=
  { rows := 0, cols := 0, type := 0, data := fun _ _ _ => 0 }

/-- Memory contents used where some fresh allocation is needed in an example. -/
def zeroFill : Nat → Nat → Nat → Fin 256 := fun _ _ _ => 0

/-- The scan the spec describes for one sequence of channel values: each step computes
`adjusted = min (v + remainder) 255`, writes `adjusted / d` and carries `adjusted % d`.
The result is the list of written values and the remainder left at the end. -/
def igsScan (d : Nat) (remainder : Nat) : List Nat → List Nat × Nat
  | [] => ([], remainder)
  | v :: vs =>
      let adjusted := min (v + remainder) 255
      let rest := igsScan d (adjusted % d) vs
      (adjusted / d :: rest.1, rest.2)

/-- The value of a cell `(channel, row, col)` of an image, as a number. -/
def cellValue (m : Mat) (cell : Nat × Nat × Nat) : Nat :=
  (m.read cell.2.1 cell.2.2 cell.1).val

/-- The remainder with which `Igs` enters each channel: zero for channel 0, and for the next
channels what the scan of the previous channel has left. -/
def igsCarry (d rows cols : Nat) (src : Mat) : Nat → Nat
  | 0 => 0
  | ch + 1 =>
      (igsScan d (igsCarry d rows cols src ch)
        ((channelValues rows cols src ch).map Fin.val)).2

/-- What `Uniform` stores for the source value `src_val`: the divisor
`256.0 / quantization_levels` followed by the loop body. -/
def uniformValue (quantization_levels : Int) (src_val : Fin 256) : Option (Fin 256) := do
  let divisor ← Dbl.div (Dbl.ofInt 256) (Dbl.ofInt quantization_levels)
  uniformPixel divisor src_val

/-- The closed form of the value `Uniform` stores for a level count `L` in `1..256` and a
source value `v`: `floor (v * L / 256)`, except for five pairs where the double precision
quotient falls just below the integer `v * L / 256`. -/
def uniformCode (L v : Nat) : Nat :=
  v * L / 256
    - (if v = 128 ∧ (L = 186 ∨ L = 198 ∨ L = 210 ∨ L = 234 ∨ L = 246) then 1 else 0)

/-- The pairs with `256 ∣ v * L`, enumerated as `L = 256 / gcd v 256 * (j + 1)`. -/
def hardCheck (v j : Nat) : Bool :=
  (uniformValue ((256 / Nat.gcd v 256 * (j + 1) : Nat) : Int) (Fin.ofNat v)).map Fin.val
    == some (uniformCode (256 / Nat.gcd v 256 * (j + 1)) v)

/-- The conversion of the integers `1..256` to double is exact: a normal form, a positive
significand, an exponent in `0..8`, and the value of the integer. -/
def ofIntExact (i : Nat) : Bool :=
  decide (Dbl.ofInt i).Normal
    && !(Dbl.ofInt i).neg && (Dbl.ofInt i).mant != 0 && decide (0 ≤ (Dbl.ofInt i).exp)
    && decide ((Dbl.ofInt i).exp ≤ 8)
    && (Dbl.ofInt i).mant * 2 ^ (Dbl.ofInt i).exp.toNat == i * 2 ^ 52

/-- The contract between a source and the destination handed to `Uniform` or `Igs`: the
destination has been created with the shape and type of the source, as `ipcv::Quantize` does
before it calls them. -/
def SameShape (src dst : Mat) : Prop :=
  dst.rows = src.rows ∧ dst.cols = src.cols ∧ dst.type = src.type

instance (src dst : Mat) : Decidable (SameShape src dst) :=
  inferInstanceAs (Decidable (dst.rows = src.rows ∧ dst.cols = src.cols ∧ dst.type = src.type))

/-- A zero-filled 3-channel image of the given shape. -/
def zeroMat (rows cols : Nat) : Mat :=
  { rows := rows, cols := cols, type := CV_8UC3, data := fun _ _ _ => 0 }

/-- An image of the given shape with separate row-major value lists for its three channels. -/
def imageOf (rows cols : Nat) (c0 c1 c2 : List (Fin 256)) : Mat :=
  { rows := rows, cols := cols, type := CV_8UC3,
    data := fun r c ch =>
      (if ch = 0 then c0 else if ch = 1 then c1 else c2).getD (r * cols + c) 0 }

/-! ## Loops -/

theorem foldlM_flatMap_option {α β γ : Type} (f : β → γ → Option β) (g : α → List γ)
    (l : List α) (b : β) :
    (l.flatMap g).foldlM f b = l.foldlM (fun b a => (g a).foldlM f b) b := by
  induction l generalizing b with
  | nil => rfl
  | cons a l ih =>
    rw [List.flatMap_cons, List.foldlM_append, List.foldlM_cons]
    cases h : (g a).foldlM f b with
    | none => rfl
    | some b1 => exact ih b1

theorem foldlM_map_option {α β γ : Type} (f : β → γ → Option β) (g : α → γ)
    (l : List α) (b : β) :
    (l.map g).foldlM f b = l.foldlM (fun b a => f b (g a)) b := by
  induction l generalizing b with
  | nil => rfl
  | cons a l ih =>
    rw [List.map_cons, List.foldlM_cons, List.foldlM_cons]
    cases h : f b (g a) with
    | none => rfl
    | some b1 => exact ih b1

/-- The three nested loops over channel, row and column are one pass over `scanOrder`. -/
theorem loops_eq_scan {σ : Type} (body : Nat → Nat → Nat → σ → Option σ) (rows cols : Nat)
    (s : σ) :
    (List.range 3).foldlM (fun st channel =>
      (List.range rows).foldlM (fun st row =>
        (List.range cols).foldlM (fun st col => body channel row col st) st) st) s
      = (scanOrder rows cols).foldlM (fun st cell => body cell.1 cell.2.1 cell.2.2 st) s := by
  unfold scanOrder
  rw [foldlM_flatMap_option]
  congr 1
  funext st channel
  rw [foldlM_flatMap_option]
  congr 1
  funext st row
  rw [foldlM_map_option]

theorem mem_scanOrder (rows cols : Nat) (cell : Nat × Nat × Nat) :
    cell ∈ scanOrder rows cols ↔ cell.1 < 3 ∧ cell.2.1 < rows ∧ cell.2.2 < cols := by
  obtain ⟨ch, r, c⟩ := cell
  simp only [scanOrder, List.mem_flatMap, List.mem_map, List.mem_range, Prod.mk.injEq]
  constructor
  · rintro ⟨ch1, h1, r1, h2, c1, h3, rfl, rfl, rfl⟩
    exact ⟨h1, h2, h3⟩
  · rintro ⟨h1, h2, h3⟩
    exact ⟨ch, h1, r, h2, c, h3, rfl, rfl, rfl⟩

theorem mem_rowMajor (rows cols : Nat) (p : Nat × Nat) :
    p ∈ rowMajor rows cols ↔ p.1 < rows ∧ p.2 < cols := by
  obtain ⟨r, c⟩ := p
  simp only [rowMajor, List.mem_flatMap, List.mem_map, List.mem_range, Prod.mk.injEq]
  constructor
  · rintro ⟨r1, h2, c1, h3, rfl, rfl⟩
    exact ⟨h2, h3⟩
  · rintro ⟨h2, h3⟩
    exact ⟨r, h2, c, h3, rfl, rfl⟩

theorem rowMajor_nodup (rows cols : Nat) : (rowMajor rows cols).Nodup := by
  unfold rowMajor
  rw [List.nodup_flatMap]
  constructor
  · intro r _
    exact (List.nodup_range cols).map (fun a b h => (Prod.mk.inj h).2)
  · refine (List.nodup_range rows).imp ?_
    intro a b hab
    simp only [Function.onFun, List.Disjoint, List.mem_map, List.mem_range]
    rintro p ⟨c1, _, rfl⟩ ⟨c2, _, h⟩
    exact hab (Prod.mk.inj h).1.symm

/-- The scan order is channel 0 in row-major order, then channel 1, then channel 2. -/
theorem scanOrder_eq (rows cols : Nat) :
    scanOrder rows cols
      = (rowMajor rows cols).map (fun p => (0, p.1, p.2))
        ++ ((rowMajor rows cols).map (fun p => (1, p.1, p.2))
        ++ (rowMajor rows cols).map (fun p => (2, p.1, p.2))) := by
  have h3 : List.range 3 = [0, 1, 2] := by decide
  have hm : ∀ ch : Nat, ((List.range rows).flatMap fun row =>
      (List.range cols).map fun col => (ch, row, col))
      = (rowMajor rows cols).map (fun p => (ch, p.1, p.2)) := by
    intro ch
    unfold rowMajor
    rw [List.map_flatMap]
    congr 1
    funext row
    rw [List.map_map]
    rfl
  unfold scanOrder
  rw [h3]
  simp only [List.flatMap_cons, List.flatMap_nil, List.append_nil, hm]

theorem scanOrder_nodup (rows cols : Nat) : (scanOrder rows cols).Nodup := by
  rw [scanOrder_eq]
  have hn : ∀ ch : Nat, ((rowMajor rows cols).map (fun p => (ch, p.1, p.2))).Nodup := by
    intro ch
    refine (rowMajor_nodup rows cols).map ?_
    rintro ⟨a, b⟩ ⟨c, d⟩ h
    simp only [Prod.mk.injEq] at h
    simp [h.2.1, h.2.2]
  refine List.Nodup.append (hn 0) (List.Nodup.append (hn 1) (hn 2) ?_) ?_
  · simp only [List.Disjoint, List.mem_map]
    rintro x ⟨p, _, rfl⟩ ⟨q, _, h⟩
    simp at h
  · simp only [List.Disjoint, List.mem_map, List.mem_append]
    rintro x ⟨p, _, rfl⟩ (⟨q, _, h⟩ | ⟨q, _, h⟩) <;> simp at h

/-! ## Writes -/

theorem read_update (m : Mat) (row col channel : Nat) (v : Fin 256) (r c ch : Nat) :
    (m.update row col channel v).read r c ch
      = if r = row ∧ c = col ∧ ch = channel then v else m.read r c ch := rfl

theorem write_inside (m : Mat) (row col channel : Nat) (v : Fin 256)
    (h : row < m.rows ∧ col < m.cols ∧ channel < 3) :
    m.write row col channel v = some (m.update row col channel v) := by
  unfold Mat.write
  rw [if_pos h]

theorem write_shape (m out : Mat) (row col channel : Nat) (v : Fin 256)
    (h : m.write row col channel v = some out) :
    out.rows = m.rows ∧ out.cols = m.cols ∧ out.type = m.type := by
  unfold Mat.write at h
  split_ifs at h
  obtain rfl := Option.some.inj h
  exact ⟨rfl, rfl, rfl⟩

theorem cellValue_update_self (m : Mat) (cell : Nat × Nat × Nat) (v : Fin 256) :
    cellValue (m.update cell.2.1 cell.2.2 cell.1 v) cell = v.val := by
  simp [cellValue, read_update]

theorem cellValue_update_other (m : Mat) (cell other : Nat × Nat × Nat) (v : Fin 256)
    (h : other ≠ cell) :
    cellValue (m.update cell.2.1 cell.2.2 cell.1 v) other = cellValue m other := by
  obtain ⟨ch, r, c⟩ := cell
  obtain ⟨ch1, r1, c1⟩ := other
  simp only [cellValue, read_update]
  rw [if_neg]
  rintro ⟨h1, h2, h3⟩
  exact h (by simp [h1, h2, h3])

/-- A pass over a list of cells inside the destination that stores `g` of the source value in
each of them. -/
theorem foldlM_write_pure (src : Mat) (G : Fin 256 → Option (Fin 256)) (g : Fin 256 → Fin 256)
    (hG : ∀ v, G v = some (g v)) (cs : List (Nat × Nat × Nat)) (dst : Mat)
    (hin : ∀ cell ∈ cs, cell.2.1 < dst.rows ∧ cell.2.2 < dst.cols ∧ cell.1 < 3) :
    ∃ out : Mat,
      cs.foldlM (fun d cell =>
        (G (src.read cell.2.1 cell.2.2 cell.1)).bind
          (fun q => d.write cell.2.1 cell.2.2 cell.1 q)) dst = some out
      ∧ out.rows = dst.rows ∧ out.cols = dst.cols ∧ out.type = dst.type
      ∧ ∀ r c ch, out.read r c ch
          = if (ch, r, c) ∈ cs then g (src.read r c ch) else dst.read r c ch := by
  induction cs generalizing dst with
  | nil => exact ⟨dst, rfl, rfl, rfl, rfl, fun r c ch => by simp⟩
  | cons cell cs ih =>
    obtain ⟨out, h1, h2, h3, h4, h5⟩ :=
      ih (dst.update cell.2.1 cell.2.2 cell.1 (g (src.read cell.2.1 cell.2.2 cell.1)))
        (fun x hx => hin x (List.mem_cons_of_mem _ hx))
    refine ⟨out, ?_, h2, h3, h4, ?_⟩
    · rw [List.foldlM_cons, hG, Option.some_bind,
        write_inside _ _ _ _ _ (hin cell (List.mem_cons_self _ _))]
      exact h1
    · intro r c ch
      rw [h5 r c ch]
      by_cases hm : (ch, r, c) ∈ cs
      · simp [hm]
      · by_cases he : (ch, r, c) = cell
        · subst he
          simp [read_update]
        · have hne : ¬ (r = cell.2.1 ∧ c = cell.2.2 ∧ ch = cell.1) := by
            rintro ⟨h1, h2, h3⟩
            exact he (by simp [h1, h2, h3])
          simp [hm, he, read_update, hne]

/-! ## The integer arithmetic of `Igs` -/

theorem igsScan_length (d : Nat) (vs : List Nat) (r : Nat) :
    (igsScan d r vs).1.length = vs.length := by
  induction vs generalizing r with
  | nil => rfl
  | cons v vs ih => simp [igsScan, ih]

theorem igsScan_append (d : Nat) (xs ys : List Nat) (r : Nat) :
    igsScan d r (xs ++ ys)
      = ((igsScan d r xs).1 ++ (igsScan d (igsScan d r xs).2 ys).1,
         (igsScan d (igsScan d r xs).2 ys).2) := by
  induction xs generalizing r with
  | nil => simp [igsScan]
  | cons v xs ih => simp [igsScan, ih]

theorem igsScan_le (d : Nat) (vs : List Nat) (r : Nat) :
    ∀ q ∈ (igsScan d r vs).1, q ≤ 255 / d := by
  induction vs generalizing r with
  | nil => simp [igsScan]
  | cons v vs ih =>
    intro q hq
    simp only [igsScan, List.mem_cons] at hq
    rcases hq with rfl | hq
    · exact Nat.div_le_div_right (min_le_right _ _)
    · exact ih _ q hq

/-- One pixel step of `Igs` with a positive divisor and a nonnegative remainder, in natural
numbers. -/
theorem igsPixel_nat (d r : Nat) (hd : 0 < d) (v : Fin 256) :
    igsPixel (d : Int) (r : Int) v
      = some (((min (v.val + r) 255 / d : Nat) : Int), ((min (v.val + r) 255 % d : Nat) : Int)) := by
  have hd0 : (d : Int) ≠ 0 := by omega
  have hmin : (if ((v.val : Int) + (r : Int)) > 255 then (255 : Int) else (v.val : Int) + r)
      = ((min (v.val + r) 255 : Nat) : Int) := by
    split_ifs with h
    · have : min (v.val + r) 255 = 255 := by omega
      rw [this]; rfl
    · have : min (v.val + r) 255 = v.val + r := by omega
      rw [this]; push_cast; rfl
  unfold igsPixel
  simp only [hmin, hd0, if_false]
  rw [Int.tdiv_eq_ediv (by omega) (by omega), Int.tmod_eq_emod (by omega) (by omega)]
  rfl

theorem toUchar_natCast (q : Nat) (h : q < 256) : (toUchar (q : Int)).val = q := by
  simp only [toUchar]
  omega

/-- A pass of the `Igs` loop body over a list of distinct cells of the destination: the values left in these
cells are the outputs of `igsScan` on the source values of the cells, the remainder is the
one `igsScan` leaves, and nothing else changes. -/
theorem igs_fold (src : Mat) (d : Nat) (hd : 0 < d) (cs : List (Nat × Nat × Nat))
    (hcs : cs.Nodup) (r : Nat) (dst : Mat)
    (hin : ∀ cell ∈ cs, cell.2.1 < dst.rows ∧ cell.2.2 < dst.cols ∧ cell.1 < 3) :
    ∃ out : Mat,
      cs.foldlM (fun st cell => igsStep src (d : Int) cell.1 cell.2.1 cell.2.2 st)
          ((r : Int), dst)
        = some (((igsScan d r (cs.map (cellValue src))).2 : Int), out)
      ∧ out.rows = dst.rows ∧ out.cols = dst.cols ∧ out.type = dst.type
      ∧ cs.map (cellValue out) = (igsScan d r (cs.map (cellValue src))).1
      ∧ ∀ cell, cell ∉ cs → cellValue out cell = cellValue dst cell := by
  induction cs generalizing r dst with
  | nil => exact ⟨dst, rfl, rfl, rfl, rfl, rfl, fun _ _ => rfl⟩
  | cons cell cs ih =>
    obtain ⟨hnot, hnd⟩ := List.nodup_cons.mp hcs
    have hq : min (cellValue src cell + r) 255 / d < 256 :=
      lt_of_le_of_lt (Nat.div_le_self _ _) (by omega)
    obtain ⟨out, h1, h2, h3, h4, h5, h6⟩ :=
      ih hnd (min (cellValue src cell + r) 255 % d)
        (dst.update cell.2.1 cell.2.2 cell.1
          (toUchar ((min (cellValue src cell + r) 255 / d : Nat) : Int)))
        (fun x hx => hin x (List.mem_cons_of_mem _ hx))
    refine ⟨out, ?_, h2, h3, h4, ?_, ?_⟩
    · rw [List.foldlM_cons]
      simp only [igsStep, igsPixel_nat d r hd, Option.some_bind,
        write_inside _ _ _ _ _ (hin cell (List.mem_cons_self _ _)), Option.map_some',
        List.map_cons, igsScan]
      exact h1
    · simp only [List.map_cons, igsScan]
      rw [h5, h6 cell hnot, cellValue_update_self, toUchar_natCast _ hq]
    · intro other ho
      rw [List.mem_cons, not_or] at ho
      rw [h6 other ho.2, cellValue_update_other _ _ _ _ ho.1]

theorem scanOrder_inside (src dst : Mat) (hr : dst.rows = src.rows) (hc : dst.cols = src.cols) :
    ∀ cell ∈ scanOrder src.rows src.cols,
      cell.2.1 < dst.rows ∧ cell.2.2 < dst.cols ∧ cell.1 < 3 := by
  intro cell hcell
  obtain ⟨a, b, c⟩ := (mem_scanOrder _ _ _).mp hcell
  exact ⟨hr ▸ b, hc ▸ c, a⟩

/-- The divisor of `Igs` for a level count in `1..256`. -/
theorem igs_divisor (levels : Int) (h1 : 1 ≤ levels) (h2 : levels ≤ 256) :
    Int.tdiv 256 levels = ((256 / levels.toNat : Nat) : Int) ∧ 0 < 256 / levels.toNat := by
  have hl : levels = (levels.toNat : Int) := by omega
  constructor
  · rw [Int.tdiv_eq_ediv (by omega) (by omega)]
    conv_lhs => rw [hl]
    rfl
  · exact Nat.div_pos (by omega) (by omega)

theorem map_cellValue_channel (rows cols : Nat) (m : Mat) (ch : Nat) :
    ((rowMajor rows cols).map (fun p => (ch, p.1, p.2))).map (cellValue m)
      = (channelValues rows cols m ch).map Fin.val := by
  simp only [channelValues, List.map_map]
  rfl

/-- What `Igs` computes for a level count in `1..256` and a destination of the shape of the
source: it returns, the shape of the destination is untouched, each channel of the result is
the `igsScan` of the same channel of the source started with the remainder carried into that
channel, and the cells outside the scan keep their value. -/
theorem Igs_scan (src dst : Mat) (levels : Int) (h1 : 1 ≤ levels) (h2 : levels ≤ 256)
    (hr : dst.rows = src.rows) (hc : dst.cols = src.cols) :
    ∃ out : Mat,
      Igs src levels dst = some out
      ∧ out.rows = dst.rows ∧ out.cols = dst.cols ∧ out.type = dst.type
      ∧ (∀ ch, ch < 3 →
          (channelValues src.rows src.cols out ch).map Fin.val
            = (igsScan (256 / levels.toNat)
                (igsCarry (256 / levels.toNat) src.rows src.cols src ch)
                ((channelValues src.rows src.cols src ch).map Fin.val)).1)
      ∧ ∀ cell, cell ∉ scanOrder src.rows src.cols → cellValue out cell = cellValue dst cell := by
  obtain ⟨hdiv, hpos⟩ := igs_divisor levels h1 h2
  obtain ⟨out, e1, e2, e3, e4, e5, e6⟩ :=
    igs_fold src (256 / levels.toNat) hpos (scanOrder src.rows src.cols)
      (scanOrder_nodup _ _) 0 dst (scanOrder_inside src dst hr hc)
  refine ⟨out, ?_, e2, e3, e4, ?_, e6⟩
  · have hne : levels ≠ 0 := by omega
    unfold Igs
    rw [if_neg hne]
    simp only [hdiv]
    rw [loops_eq_scan (fun channel row col st =>
      igsStep src ((256 / levels.toNat : Nat) : Int) channel row col st)]
    have h0 : ((0 : Int), dst) = (((0 : Nat) : Int), dst) := rfl
    rw [h0, e1]
    rfl
  · rw [scanOrder_eq] at e5
    simp only [List.map_append, map_cellValue_channel, igsScan_append] at e5
    obtain ⟨c0, c12⟩ := List.append_inj e5 (by simp [igsScan_length, channelValues])
    obtain ⟨c1, c2⟩ := List.append_inj c12 (by simp [igsScan_length, channelValues])
    intro ch hch
    interval_cases ch
    · exact c0
    · exact c1
    · exact c2

/-! ## The double precision arithmetic of `Uniform` -/

theorem roundHalfEven_err (a b : Nat) (hb : 0 < b) :
    |(roundHalfEven a b : ℚ) - (a : ℚ) / b| ≤ 1 / 2 := by
  have hbq : (0 : ℚ) < b := by exact_mod_cast hb
  have hdm : (a : ℚ) = (b : ℚ) * ((a / b : Nat) : ℚ) + ((a % b : Nat) : ℚ) := by
    exact_mod_cast (Nat.div_add_mod a b).symm
  have hr : ((a % b : Nat) : ℚ) < b := by exact_mod_cast Nat.mod_lt a hb
  have hr0 : (0 : ℚ) ≤ ((a % b : Nat) : ℚ) := by positivity
  have key : ∀ q : ℚ, |q - (a : ℚ) / b| ≤ 1 / 2 ↔
      (2 * (q * b - a) ≤ b ∧ -(b : ℚ) ≤ 2 * (q * b - a)) := by
    intro q
    have e : q - (a : ℚ) / b = (q * b - a) / b := by field_simp
    rw [e, abs_le, le_div_iff₀ hbq, div_le_iff₀ hbq]
    constructor
    · rintro ⟨h1, h2⟩; constructor <;> linarith
    · rintro ⟨h1, h2⟩; constructor <;> linarith
  unfold roundHalfEven
  simp only
  split_ifs with h1 h2 h3
  · have h1q : (2 : ℚ) * ((a % b : Nat) : ℚ) < b := by exact_mod_cast h1
    rw [key]
    constructor <;> nlinarith
  · have h2q : (b : ℚ) < 2 * ((a % b : Nat) : ℚ) := by exact_mod_cast h2
    rw [key]
    push_cast
    constructor <;> nlinarith
  · have h1q : (b : ℚ) ≤ 2 * ((a % b : Nat) : ℚ) := by exact_mod_cast (not_lt.mp h1)
    have h2q : 2 * ((a % b : Nat) : ℚ) ≤ (b : ℚ) := by exact_mod_cast (not_lt.mp h2)
    rw [key]
    constructor <;> nlinarith
  · have h1q : (b : ℚ) ≤ 2 * ((a % b : Nat) : ℚ) := by exact_mod_cast (not_lt.mp h1)
    have h2q : 2 * ((a % b : Nat) : ℚ) ≤ (b : ℚ) := by exact_mod_cast (not_lt.mp h2)
    rw [key]
    push_cast
    constructor <;> nlinarith

theorem roundHalfEven_bounds (a b : Nat) :
    a / b ≤ roundHalfEven a b ∧ roundHalfEven a b ≤ a / b + 1 := by
  unfold roundHalfEven
  simp only
  split_ifs <;> omega

/-- Division keeps doubles in normal form: the quotient of two normal doubles has a 53-bit
significand with its leading bit set (or is zero). -/
theorem Dbl_div_normal (a b r : Dbl) (ha : a.Normal) (hb : b.Normal)
    (h : Dbl.div a b = some r) : r.Normal := by
  unfold Dbl.div at h
  by_cases hb0 : b.mant = 0
  · rw [if_pos hb0] at h
    exact absurd h (by simp)
  rw [if_neg hb0] at h
  by_cases ha0 : a.mant = 0
  · rw [if_pos ha0] at h
    obtain rfl := Option.some.inj h
    exact Or.inl rfl
  rw [if_neg ha0] at h
  simp only at h
  obtain ⟨ha1, ha2⟩ := ha.resolve_left ha0
  obtain ⟨hb1, hb2⟩ := hb.resolve_left hb0
  have hbpos : 0 < b.mant := Nat.pos_of_ne_zero hb0
  have hfloor : 2 ^ 52 ≤ a.mant * 2 ^ (52 + (if a.mant < b.mant then 1 else 0)) / b.mant
      ∧ a.mant * 2 ^ (52 + (if a.mant < b.mant then 1 else 0)) / b.mant < 2 ^ 53 := by
    rw [Nat.le_div_iff_mul_le hbpos, Nat.div_lt_iff_lt_mul hbpos]
    have h53 : (2 : Nat) ^ 53 = 2 ^ 52 * 2 := by norm_num
    by_cases hlt : a.mant < b.mant
    · have e : (2 : Nat) ^ (52 + 1) = 2 ^ 52 * 2 := by norm_num
      rw [if_pos hlt, e]
      constructor <;> nlinarith
    · have e : (2 : Nat) ^ (52 + 0) = 2 ^ 52 := by norm_num
      rw [if_neg hlt, e, h53]
      constructor <;> nlinarith
  obtain ⟨lo, hi⟩ := roundHalfEven_bounds
    (a.mant * 2 ^ (52 + (if a.mant < b.mant then 1 else 0))) b.mant
  by_cases hq : roundHalfEven (a.mant * 2 ^ (52 + (if a.mant < b.mant then 1 else 0))) b.mant
      = 2 ^ 53
  · rw [if_pos hq] at h
    obtain rfl := Option.some.inj h
    exact Or.inr ⟨le_refl _, by norm_num⟩
  · rw [if_neg hq] at h
    obtain rfl := Option.some.inj h
    exact Or.inr ⟨le_trans hfloor.1 lo, by simp only; omega⟩

/-- The model against known binary64 values: `1.0 / 3` is `0x1.5555555555555p-2`. -/
theorem Dbl_div_one_third :
    Dbl.div (Dbl.ofInt 1) (Dbl.ofInt 3) = some ⟨false, 0x15555555555555, -2⟩ := by
  decide

/-- The model against known binary64 values: `1.0 / 10` is `0x1.999999999999ap-4`. -/
theorem Dbl_div_one_tenth :
    Dbl.div (Dbl.ofInt 1) (Dbl.ofInt 10) = some ⟨false, 0x1999999999999a, -4⟩ := by
  decide

/-- The divisor `256.0 / 186` is `0x1.6058160581606p+0`, which is above the rational
`256 / 186`. -/
theorem Dbl_divisor_186 :
    Dbl.div (Dbl.ofInt 256) (Dbl.ofInt 186) = some ⟨false, 0x16058160581606, 0⟩
      ∧ (256 : ℚ) / 186 < Dbl.toRat ⟨false, 0x16058160581606, 0⟩ := by
  constructor
  · decide
  · simp only [Dbl.toRat, Bool.false_eq_true, if_false]
    norm_num

/-- The quotient `128 / (256.0 / 186)` is `0x1.73fffffffffffp+6`, the largest double
below 93. -/
theorem Dbl_quotient_128_186 :
    Dbl.div (Dbl.ofInt 128) ⟨false, 0x16058160581606, 0⟩
      = some ⟨false, 0x173fffffffffff, 6⟩ := by
  decide

/-- Division of two positive doubles: the result is within half a unit in the last place of
the exact quotient. -/
theorem Dbl_div_err (a b : Dbl) (ha : a.neg = false) (hb : b.neg = false)
    (ham : a.mant ≠ 0) (hbm : b.mant ≠ 0) :
    ∃ r : Dbl, Dbl.div a b = some r ∧ r.neg = false ∧ a.exp - b.exp - 1 ≤ r.exp
      ∧ |r.toRat - a.toRat / b.toRat| ≤ (2 : ℚ) ^ (a.exp - b.exp - 53) := by
  obtain ⟨an, am, ae⟩ := a
  obtain ⟨bn, bm, be⟩ := b
  simp only at ha hb ham hbm
  subst ha hb
  have h2 : (2 : ℚ) ≠ 0 := by norm_num
  have hbq : (0 : ℚ) < bm := by exact_mod_cast Nat.pos_of_ne_zero hbm
  -- the common part of both branches
  have main : ∀ k : Nat, k ≤ 1 →
      |(roundHalfEven (am * 2 ^ (52 + k)) bm : ℚ) * (2 : ℚ) ^ (ae - be - k - 52)
        - ((am : ℚ) * (2 : ℚ) ^ (ae - 52)) / ((bm : ℚ) * (2 : ℚ) ^ (be - 52))|
      ≤ (2 : ℚ) ^ (ae - be - 53) := by
    intro k hk
    have hs : (0 : ℚ) < (2 : ℚ) ^ (ae - be - k - 52) := zpow_pos (by norm_num) _
    have e1 : ((am : ℚ) * (2 : ℚ) ^ (ae - 52)) / ((bm : ℚ) * (2 : ℚ) ^ (be - 52))
        = (2 : ℚ) ^ (ae - be - k - 52) * (((am * 2 ^ (52 + k) : Nat) : ℚ) / bm) := by
      have e2 : (2 : ℚ) ^ (ae - 52)
          = (2 : ℚ) ^ (ae - be - k - 52) * (2 : ℚ) ^ (52 + k) * (2 : ℚ) ^ (be - 52) := by
        rw [← zpow_natCast, ← zpow_add₀ h2, ← zpow_add₀ h2]
        congr 1
        push_cast
        ring
      rw [e2]
      have : (2 : ℚ) ^ (be - 52) ≠ 0 := zpow_ne_zero _ h2
      push_cast
      field_simp
      ring
    rw [e1, mul_comm _ ((2 : ℚ) ^ (ae - be - k - 52)), ← mul_sub, abs_mul, abs_of_pos hs]
    have herr := roundHalfEven_err (am * 2 ^ (52 + k)) bm (Nat.pos_of_ne_zero hbm)
    have hle : (2 : ℚ) ^ (ae - be - k - 52) * (1 / 2) ≤ (2 : ℚ) ^ (ae - be - 53) := by
      have e3 : (2 : ℚ) ^ (ae - be - k - 52) * (1 / 2) = (2 : ℚ) ^ (ae - be - k - 53) := by
        have : ae - be - k - 53 = (ae - be - k - 52) - 1 := by ring
        rw [this, zpow_sub_one₀ h2]
        norm_num
      rw [e3]
      exact zpow_le_zpow_right₀ (by norm_num) (by omega)
    calc (2 : ℚ) ^ (ae - be - k - 52)
          * |(roundHalfEven (am * 2 ^ (52 + k)) bm : ℚ) - ((am * 2 ^ (52 + k) : Nat) : ℚ) / bm|
        ≤ (2 : ℚ) ^ (ae - be - k - 52) * (1 / 2) :=
          mul_le_mul_of_nonneg_left herr hs.le
      _ ≤ (2 : ℚ) ^ (ae - be - 53) := hle
  have hk : (if am < bm then 1 else 0 : Nat) ≤ 1 := by split_ifs <;> omega
  unfold Dbl.div
  simp only [hbm, ham, if_false]
  generalize (if am < bm then 1 else 0 : Nat) = k at hk
  have hm := main k hk
  by_cases hq : roundHalfEven (am * 2 ^ (52 + k)) bm = 2 ^ 53
  · rw [if_pos hq]
    refine ⟨_, rfl, rfl, by simp only; omega, ?_⟩
    rw [hq] at hm
    simp only [Dbl.toRat, bne_self_eq_false, Bool.false_eq_true, if_false, one_mul]
    have e4 : ((2 ^ 52 : Nat) : ℚ) * (2 : ℚ) ^ (ae - be - (k : Int) + 1 - 52)
        = ((2 ^ 53 : Nat) : ℚ) * (2 : ℚ) ^ (ae - be - (k : Int) - 52) := by
      have : ae - be - (k : Int) + 1 - 52 = (ae - be - (k : Int) - 52) + 1 := by ring
      rw [this, zpow_add_one₀ h2, Nat.cast_pow, Nat.cast_pow]
      have e5 : ((2 : Nat) : ℚ) ^ 53 = ((2 : Nat) : ℚ) ^ 52 * 2 := by
        rw [pow_succ]; norm_num
      rw [e5]
      ring
    rw [e4]
    exact hm
  · rw [if_neg hq]
    refine ⟨_, rfl, rfl, by simp only; omega, ?_⟩
    simp only [Dbl.toRat, bne_self_eq_false, Bool.false_eq_true, if_false, one_mul]
    exact hm

set_option maxRecDepth 100000 in
theorem ofInt_table : ∀ i, i < 256 → ofIntExact (i + 1) = true := by
  decide!

theorem ofInt_normal (i : Nat) (h1 : 1 ≤ i) (h2 : i ≤ 256) : (Dbl.ofInt i).Normal := by
  have h := ofInt_table (i - 1) (by omega)
  rw [Nat.sub_add_cancel h1] at h
  simp only [ofIntExact, Bool.and_eq_true, decide_eq_true_eq] at h
  exact h.1.1.1.1.1

theorem ofInt_facts (i : Nat) (h1 : 1 ≤ i) (h2 : i ≤ 256) :
    (Dbl.ofInt i).neg = false ∧ (Dbl.ofInt i).mant ≠ 0 ∧ 0 ≤ (Dbl.ofInt i).exp
      ∧ (Dbl.ofInt i).exp ≤ 8 ∧ (Dbl.ofInt i).toRat = i := by
  have h := ofInt_table (i - 1) (by omega)
  rw [Nat.sub_add_cancel h1] at h
  simp only [ofIntExact, Bool.and_eq_true, Bool.not_eq_true', bne_iff_ne, ne_eq,
    decide_eq_true_eq, beq_iff_eq] at h
  obtain ⟨⟨⟨⟨⟨_, n1⟩, n2⟩, n3⟩, n4⟩, n5⟩ := h
  refine ⟨n1, n2, n3, n4, ?_⟩
  have h2 : (2 : ℚ) ≠ 0 := by norm_num
  have n5q : ((Dbl.ofInt i).mant : ℚ) * (2 : ℚ) ^ (Dbl.ofInt i).exp.toNat = (i : ℚ) * 2 ^ 52 := by
    exact_mod_cast n5
  have he : (Dbl.ofInt i).exp - 52 = ((Dbl.ofInt i).exp.toNat : Int) - (52 : Nat) := by
    rw [Int.toNat_of_nonneg n3]; rfl
  simp only [Dbl.toRat, n1, Bool.false_eq_true, if_false, one_mul]
  rw [he, zpow_sub₀ h2, zpow_natCast, zpow_natCast, ← mul_div_assoc, n5q]
  field_simp

/-- The narrowing of a nonnegative double whose value lies in `[k, k + 1)`. -/
theorem Dbl_toUchar_floor (x : Dbl) (k : Nat) (hk : k < 256) (hn : x.neg = false)
    (h1 : (k : ℚ) ≤ x.toRat) (h2 : x.toRat < (k : ℚ) + 1) :
    x.toUchar = some ⟨k, hk⟩ := by
  have h2ne : (2 : ℚ) ≠ 0 := by norm_num
  have hval : x.toRat
      = ((x.mant * 2 ^ x.exp.toNat : Nat) : ℚ) / ((2 ^ (52 + (-x.exp).toNat) : Nat) : ℚ) := by
    have he : x.exp - 52 = (x.exp.toNat : Int) - ((52 + (-x.exp).toNat : Nat) : Int) := by
      have := Int.toNat_sub_toNat_neg x.exp
      push_cast
      omega
    simp only [Dbl.toRat, hn, Bool.false_eq_true, if_false, one_mul]
    rw [he, zpow_sub₀ h2ne, zpow_natCast, zpow_natCast]
    push_cast
    ring
  have ht : x.mant * 2 ^ x.exp.toNat / 2 ^ (52 + (-x.exp).toNat) = k := by
    rw [← Nat.floor_div_eq_div (α := ℚ), ← hval]
    exact (Nat.floor_eq_iff (le_trans (by positivity) h1)).mpr ⟨h1, h2⟩
  unfold Dbl.toUchar
  simp only [ht, hn, Bool.false_eq_true, if_false, hk, dite_true]
  split_ifs with h0
  · subst h0; rfl
  · rfl

/-- The error analysis behind `Uniform`: a divisor within `2^-45` of `256 / L` and a quotient
within `2^-36` of `v / divisor` cannot move the quotient across an integer unless `v * L` is
a multiple of 256. -/
theorem uniform_error_analysis (L v k f : Nat) (d r : ℚ) (hL1 : 1 ≤ L) (hL2 : L ≤ 256)
    (hk : k < 256) (hf1 : 1 ≤ f) (hf2 : f ≤ 255) (hvl : v * L = 256 * k + f)
    (hd : |d - 256 / (L : ℚ)| ≤ 1 / 2 ^ 45) (hr : |r - (v : ℚ) / d| ≤ 1 / 2 ^ 36) :
    (k : ℚ) ≤ r ∧ r < (k : ℚ) + 1 := by
  have hLq1 : (1 : ℚ) ≤ L := by exact_mod_cast hL1
  have hLq2 : (L : ℚ) ≤ 256 := by exact_mod_cast hL2
  have hLpos : (0 : ℚ) < L := by linarith
  have hkq : (k : ℚ) ≤ 255 := by exact_mod_cast Nat.le_of_lt_succ hk
  have hk0 : (0 : ℚ) ≤ k := by positivity
  have hfq1 : (1 : ℚ) ≤ f := by exact_mod_cast hf1
  have hfq2 : (f : ℚ) ≤ 255 := by exact_mod_cast hf2
  have hvlq : (v : ℚ) * L = 256 * k + f := by exact_mod_cast hvl
  obtain ⟨D0, hD0⟩ : ∃ D0 : ℚ, D0 = 256 / (L : ℚ) := ⟨_, rfl⟩
  rw [← hD0] at hd
  have hD0L : D0 * L = 256 := by rw [hD0]; field_simp
  have hD1 : 1 ≤ D0 := by nlinarith
  have hD2 : D0 ≤ 256 := by nlinarith
  have hv : (v : ℚ) = k * D0 + f * D0 / 256 := by
    have : (v : ℚ) * L = (k * D0 + f * D0 / 256) * L := by
      rw [hvlq]
      have : (k * D0 + f * D0 / 256) * L = (k + f / 256) * (D0 * L) := by ring
      rw [this, hD0L]
      ring
    exact mul_right_cancel₀ hLpos.ne' this
  obtain ⟨hd1, hd2⟩ := abs_le.mp hd
  obtain ⟨hr1, hr2⟩ := abs_le.mp hr
  have hdpos : 0 < d := by
    have : (1 : ℚ) / 2 ^ 45 < 1 := by norm_num
    linarith
  have e45 : (1 : ℚ) / 2 ^ 45 = 1 / 35184372088832 := by norm_num
  have e36 : (1 : ℚ) / 2 ^ 36 = 1 / 68719476736 := by norm_num
  rw [e45] at hd1 hd2
  rw [e36] at hr1 hr2
  constructor
  · have h1 : (k : ℚ) + 1 / 68719476736 ≤ (v : ℚ) / d := by
      rw [le_div_iff₀ hdpos]
      have h2 : ((k : ℚ) + 1 / 68719476736) * d
          ≤ ((k : ℚ) + 1 / 68719476736) * (D0 + 1 / 35184372088832) :=
        mul_le_mul_of_nonneg_left (by linarith) (by positivity)
      have h3 : ((k : ℚ) + 1 / 68719476736) * (D0 + 1 / 35184372088832) ≤ v := by
        rw [hv]
        have h4 : (f : ℚ) * D0 / 256 ≥ D0 / 256 := by
          have : (f : ℚ) * D0 ≥ 1 * D0 := mul_le_mul_of_nonneg_right hfq1 (by linarith)
          linarith
        nlinarith
      exact le_trans h2 h3
    linarith only [h1, hr1]
  · have h1 : (v : ℚ) / d < (k : ℚ) + 1 - 1 / 68719476736 := by
      rw [div_lt_iff₀ hdpos]
      have h2 : ((k : ℚ) + 1 - 1 / 68719476736) * (D0 - 1 / 35184372088832)
          ≤ ((k : ℚ) + 1 - 1 / 68719476736) * d :=
        mul_le_mul_of_nonneg_left (by linarith) (by linarith)
      have h3 : (v : ℚ) < ((k : ℚ) + 1 - 1 / 68719476736) * (D0 - 1 / 35184372088832) := by
        rw [hv]
        have h4 : (f : ℚ) * D0 / 256 ≤ 255 * D0 / 256 := by
          have : (f : ℚ) * D0 ≤ 255 * D0 := mul_le_mul_of_nonneg_right hfq2 (by linarith)
          linarith
        nlinarith
      exact lt_of_lt_of_le h3 h2
    linarith only [h1, hr2]

set_option maxRecDepth 1000000 in
theorem hard_table : ∀ v, v < 256 → ∀ j, j < Nat.gcd v 256 → hardCheck v j = true := by
  decide!

theorem uniformValue_generic (L v k f : Nat) (hL1 : 1 ≤ L) (hL2 : L ≤ 256) (hv : v < 256)
    (hk : k < 256) (hf1 : 1 ≤ f) (hf2 : f ≤ 255) (hvl : v * L = 256 * k + f) :
    uniformValue (L : Int) ⟨v, hv⟩ = some ⟨k, hk⟩ := by
  have hv1 : 1 ≤ v := by
    rcases Nat.eq_zero_or_pos v with h | h
    · subst h; omega
    · exact h
  obtain ⟨c1, c2, c3, c4, c5⟩ := ofInt_facts 256 (by norm_num) (by norm_num)
  obtain ⟨b1, b2, b3, b4, b5⟩ := ofInt_facts L hL1 hL2
  obtain ⟨a1, a2, a3, a4, a5⟩ := ofInt_facts v hv1 (by omega)
  simp only [Nat.cast_ofNat] at c1 c2 c3 c4 c5
  obtain ⟨d, hd, d1, d2, d3⟩ := Dbl_div_err _ _ c1 b1 c2 b2
  rw [c5, b5] at d3
  have two : (1 : ℚ) ≤ 2 := by norm_num
  have d3b : |d.toRat - 256 / (L : ℚ)| ≤ 1 / 2 ^ 45 := by
    refine le_trans d3 (le_trans (zpow_le_zpow_right₀ two (show _ ≤ (-45 : Int) by omega)) ?_)
    norm_num
  have hLq1 : (1 : ℚ) ≤ L := by exact_mod_cast hL1
  have hLq2 : (L : ℚ) ≤ 256 := by exact_mod_cast hL2
  have hDL : (1 : ℚ) ≤ 256 / (L : ℚ) := by
    rw [le_div_iff₀ (by linarith)]
    linarith
  have dm : d.mant ≠ 0 := by
    intro h0
    have hz : d.toRat = 0 := by simp [Dbl.toRat, h0]
    rw [hz] at d3b
    have h45 : (1 : ℚ) / 2 ^ 45 < 1 := by norm_num
    have := (abs_le.mp d3b).1
    linarith
  obtain ⟨r, hr, r1, r2, r3⟩ := Dbl_div_err _ _ a1 d1 a2 dm
  rw [a5] at r3
  have r3b : |r.toRat - (v : ℚ) / d.toRat| ≤ 1 / 2 ^ 36 := by
    refine le_trans r3 (le_trans (zpow_le_zpow_right₀ two (show _ ≤ (-36 : Int) by omega)) ?_)
    norm_num
  obtain ⟨lo, hi⟩ := uniform_error_analysis L v k f d.toRat r.toRat hL1 hL2 hk hf1 hf2 hvl d3b r3b
  have hu := Dbl_toUchar_floor r k hk r1 lo hi
  simp only [uniformValue, uniformPixel, hd, Option.bind_eq_bind, Option.some_bind]
  rw [hr]
  exact hu

/-- The value `Uniform` stores, for every level count in `1..256` and every source value. -/
theorem uniformValue_eq (L v : Nat) (hL1 : 1 ≤ L) (hL2 : L ≤ 256) (hv : v < 256) :
    (uniformValue (L : Int) ⟨v, hv⟩).map Fin.val = some (uniformCode L v) := by
  by_cases hdvd : 256 ∣ v * L
  · -- the level count is a multiple of `256 / gcd v 256`
    have hg : 0 < Nat.gcd v 256 := Nat.gcd_pos_of_pos_right v (by norm_num)
    have hg256 : Nat.gcd v 256 ∣ 256 := Nat.gcd_dvd_right v 256
    have hgv : Nat.gcd v 256 ∣ v := Nat.gcd_dvd_left v 256
    have hstep : 256 / Nat.gcd v 256 ∣ L := by
      have hco : Nat.Coprime (256 / Nat.gcd v 256) (v / Nat.gcd v 256) :=
        (Nat.coprime_div_gcd_div_gcd hg).symm
      refine hco.dvd_of_dvd_mul_left ?_
      have e1 : 256 = Nat.gcd v 256 * (256 / Nat.gcd v 256) := (Nat.mul_div_cancel' hg256).symm
      have e2 : v * L = Nat.gcd v 256 * (v / Nat.gcd v 256 * L) := by
        rw [← Nat.mul_assoc, Nat.mul_div_cancel' hgv]
      rw [e2] at hdvd
      have hdvd2 : Nat.gcd v 256 * (256 / Nat.gcd v 256)
          ∣ Nat.gcd v 256 * (v / Nat.gcd v 256 * L) := by
        rw [← e1]; exact hdvd
      exact (Nat.mul_dvd_mul_iff_left hg).mp hdvd2
    obtain ⟨m, hm⟩ := hstep
    have hm1 : 1 ≤ m := by
      rcases Nat.eq_zero_or_pos m with h | h
      · subst h; omega
      · exact h
    have hmg : m ≤ Nat.gcd v 256 := by
      by_contra hlt
      have h1 : Nat.gcd v 256 + 1 ≤ m := by omega
      have h2 : 256 / Nat.gcd v 256 * (Nat.gcd v 256 + 1) ≤ 256 / Nat.gcd v 256 * m :=
        Nat.mul_le_mul_left _ h1
      have h3 : 256 / Nat.gcd v 256 * Nat.gcd v 256 = 256 := Nat.div_mul_cancel hg256
      have h4 : 0 < 256 / Nat.gcd v 256 := Nat.div_pos (Nat.le_of_dvd (by norm_num) hg256) hg
      rw [Nat.mul_add, h3, ← hm] at h2
      omega
    have ht := hard_table v hv (m - 1) (by omega)
    simp only [hardCheck, Nat.sub_add_cancel hm1, ← hm, beq_iff_eq] at ht
    have hfin : (Fin.ofNat v : Fin 256) = ⟨v, hv⟩ := by
      apply Fin.ext
      simp [Fin.ofNat, Nat.mod_eq_of_lt hv]
    rw [hfin] at ht
    exact ht
  · have hf : 1 ≤ v * L % 256 := by
      rcases Nat.eq_zero_or_pos (v * L % 256) with h | h
      · exact absurd (Nat.dvd_of_mod_eq_zero h) hdvd
      · exact h
    have hk : v * L / 256 < 256 := by
      have : v * L < 256 * 256 := by nlinarith
      omega
    have hcode : uniformCode L v = v * L / 256 := by
      unfold uniformCode
      rw [if_neg, Nat.sub_zero]
      rintro ⟨rfl, h | h | h | h | h⟩ <;> subst h <;> exact hdvd (by decide)
    rw [uniformValue_generic L v (v * L / 256) (v * L % 256) hL1 hL2 hv hk hf
      (by omega) (Nat.div_add_mod _ _).symm, hcode]
    rfl

theorem uniformCode_lt (L v : Nat) (hL1 : 1 ≤ L) (hv : v < 256) : uniformCode L v < L := by
  have h : v * L / 256 < L := by
    rw [Nat.div_lt_iff_lt_mul (by norm_num)]
    nlinarith
  unfold uniformCode
  omega

theorem uniformCode_mono (L a b : Nat) (hab : a ≤ b) (hb : b < 256) :
    uniformCode L a ≤ uniformCode L b := by
  have hdiv : a * L / 256 ≤ b * L / 256 :=
    Nat.div_le_div_right (Nat.mul_le_mul_right L hab)
  unfold uniformCode
  by_cases hB : b = 128 ∧ (L = 186 ∨ L = 198 ∨ L = 210 ∨ L = 234 ∨ L = 246)
  · obtain ⟨rfl, h | h | h | h | h⟩ := hB <;> subst h <;> split_ifs <;> omega
  · rw [if_neg hB]
    omega

/-- For a level count in `1..256` the divisor of `Uniform` exists and the loop body stores
`uniformCode` of the source value. -/
theorem uniform_divisor (L : Nat) (hL1 : 1 ≤ L) (hL2 : L ≤ 256) :
    ∃ d : Dbl, Dbl.div (Dbl.ofInt 256) (Dbl.ofInt (L : Int)) = some d
      ∧ ∀ v : Fin 256, ∃ x : Fin 256, uniformPixel d v = some x ∧ x.val = uniformCode L v.val := by
  obtain ⟨c1, c2, _, _, _⟩ := ofInt_facts 256 (by norm_num) (by norm_num)
  obtain ⟨b1, b2, _, _, _⟩ := ofInt_facts L hL1 hL2
  simp only [Nat.cast_ofNat] at c1 c2
  obtain ⟨d, hd, _⟩ := Dbl_div_err _ _ c1 b1 c2 b2
  refine ⟨d, hd, ?_⟩
  intro v
  have h := uniformValue_eq L v.val hL1 hL2 v.isLt
  simp only [uniformValue, hd, Option.bind_eq_bind, Option.some_bind, Fin.eta] at h
  cases hx : uniformPixel d v with
  | none => rw [hx] at h; simp at h
  | some x =>
    rw [hx] at h
    simp only [Option.map_some', Option.some.injEq] at h
    exact ⟨x, rfl, h⟩

/-- What `Uniform` computes for a level count in `1..256` and a destination of the shape of
the source: it returns, the shape of the destination is untouched, every cell of the scan
holds `uniformCode` of the source value of the same cell, and every other cell keeps its
value. -/
theorem Uniform_cells (src dst : Mat) (levels : Int) (h1 : 1 ≤ levels) (h2 : levels ≤ 256)
    (hr : dst.rows = src.rows) (hc : dst.cols = src.cols) :
    ∃ out : Mat,
      Uniform src levels dst = some out
      ∧ out.rows = dst.rows ∧ out.cols = dst.cols ∧ out.type = dst.type
      ∧ (∀ r c ch, r < src.rows → c < src.cols → ch < 3 →
          (out.read r c ch).val = uniformCode levels.toNat (src.read r c ch).val)
      ∧ ∀ r c ch, ¬ (r < src.rows ∧ c < src.cols ∧ ch < 3) →
          out.read r c ch = dst.read r c ch := by
  have hl : levels = (levels.toNat : Int) := by omega
  obtain ⟨d, hd, hpix⟩ := uniform_divisor levels.toNat (by omega) (by omega)
  rw [← hl] at hd
  obtain ⟨out, e1, e2, e3, e4, e5⟩ :=
    foldlM_write_pure src (uniformPixel d) (fun v => (uniformPixel d v).getD 0)
      (fun v => by obtain ⟨x, hx, _⟩ := hpix v; simp only [hx, Option.getD_some])
      (scanOrder src.rows src.cols) dst (scanOrder_inside src dst hr hc)
  refine ⟨out, ?_, e2, e3, e4, ?_, ?_⟩
  · unfold Uniform
    simp only [hd, Option.bind_eq_bind, Option.some_bind]
    rw [loops_eq_scan (fun channel row col (dst : Mat) =>
      (uniformPixel d (src.read row col channel)).bind
        (fun quantized_val => dst.write row col channel quantized_val))]
    exact e1
  · intro r c ch hr hc hch
    rw [e5 r c ch, if_pos ((mem_scanOrder _ _ _).mpr ⟨hch, hr, hc⟩)]
    obtain ⟨x, hx, hxv⟩ := hpix (src.read r c ch)
    simp only [hx, Option.getD_some]
    exact hxv
  · intro r c ch hn
    rw [e5 r c ch, if_neg]
    intro hm
    obtain ⟨a, b, c⟩ := (mem_scanOrder _ _ _).mp hm
    exact hn ⟨b, c, a⟩

/-! ## Shapes -/

theorem foldlM_preserves {σ α : Type} (P : σ → Prop) (f : σ → α → Option σ)
    (hf : ∀ s a t, f s a = some t → P s → P t) (l : List α) (s t : σ)
    (h : l.foldlM f s = some t) (hs : P s) : P t := by
  induction l generalizing s with
  | nil =>
    simp only [List.foldlM_nil, Option.pure_def, Option.some.injEq] at h
    exact h ▸ hs
  | cons a l ih =>
    rw [List.foldlM_cons] at h
    cases hfa : f s a with
    | none => rw [hfa] at h; simp at h
    | some u =>
      rw [hfa] at h
      exact ih u h (hf s a u hfa hs)

theorem create_shape (dst : Mat) (rows cols type : Nat) (fresh : Nat → Nat → Nat → Fin 256) :
    (dst.create rows cols type fresh).rows = rows
      ∧ (dst.create rows cols type fresh).cols = cols
      ∧ (dst.create rows cols type fresh).type = type := by
  unfold Mat.create
  split_ifs with h
  · exact h
  · exact ⟨rfl, rfl, rfl⟩

theorem create_sameShape (src dst : Mat) (fresh : Nat → Nat → Nat → Fin 256) :
    SameShape src (dst.create src.rows src.cols src.type fresh) :=
  create_shape dst src.rows src.cols src.type fresh

/-- Whenever `Uniform` returns, for any level count, the destination has kept its shape. -/
theorem Uniform_shape (src dst out : Mat) (levels : Int) (h : Uniform src levels dst = some out) :
    out.rows = dst.rows ∧ out.cols = dst.cols ∧ out.type = dst.type := by
  unfold Uniform at h
  cases hd : Dbl.div (Dbl.ofInt 256) (Dbl.ofInt levels) with
  | none => rw [hd] at h; simp at h
  | some d =>
    rw [hd] at h
    simp only [Option.bind_eq_bind, Option.some_bind] at h
    rw [loops_eq_scan (fun channel row col (dst : Mat) =>
      (uniformPixel d (src.read row col channel)).bind
        (fun quantized_val => dst.write row col channel quantized_val))] at h
    refine foldlM_preserves
      (fun m : Mat => m.rows = dst.rows ∧ m.cols = dst.cols ∧ m.type = dst.type) _ ?_ _ _ _ h
      ⟨rfl, rfl, rfl⟩
    intro s a t hst hs
    cases hp : uniformPixel d (src.read a.2.1 a.2.2 a.1) with
    | none => simp [hp] at hst
    | some q =>
      simp only [hp, Option.some_bind] at hst
      obtain ⟨w1, w2, w3⟩ := write_shape _ _ _ _ _ _ hst
      exact ⟨w1.trans hs.1, w2.trans hs.2.1, w3.trans hs.2.2⟩

/-- Whenever `Igs` returns, for any level count, the destination has kept its shape. -/
theorem Igs_shape (src dst out : Mat) (levels : Int) (h : Igs src levels dst = some out) :
    out.rows = dst.rows ∧ out.cols = dst.cols ∧ out.type = dst.type := by
  unfold Igs at h
  split_ifs at h with h0
  simp only at h
  rw [loops_eq_scan (fun channel row col st =>
    igsStep src (Int.tdiv 256 levels) channel row col st)] at h
  cases hf : (scanOrder src.rows src.cols).foldlM
      (fun st cell => igsStep src (Int.tdiv 256 levels) cell.1 cell.2.1 cell.2.2 st)
      ((0 : Int), dst) with
  | none => rw [hf] at h; simp at h
  | some st =>
    rw [hf] at h
    simp only [Option.map_some', Option.some.injEq] at h
    subst h
    refine foldlM_preserves
      (fun s : Int × Mat => s.2.rows = dst.rows ∧ s.2.cols = dst.cols ∧ s.2.type = dst.type)
      _ ?_ _ _ _ hf ⟨rfl, rfl, rfl⟩
    intro s a t hst hs
    unfold igsStep at hst
    cases hp : igsPixel (Int.tdiv 256 levels) s.1 (src.read a.2.1 a.2.2 a.1) with
    | none => simp [hp] at hst
    | some q =>
      simp only [hp, Option.some_bind] at hst
      cases hw : s.2.write a.2.1 a.2.2 a.1 (toUchar q.1) with
      | none => simp [hw] at hst
      | some m =>
        simp only [hw, Option.map_some', Option.some.injEq] at hst
        subst hst
        obtain ⟨w1, w2, w3⟩ := write_shape _ _ _ _ _ _ hw
        exact ⟨w1.trans hs.1, w2.trans hs.2.1, w3.trans hs.2.2⟩

/-- Two images agree on a channel of their top-left part exactly when the row-major value
lists of that channel agree. -/
theorem channel_eq_iff (rows cols : Nat) (m1 m2 : Mat) (ch : Nat) :
    (channelValues rows cols m1 ch).map Fin.val = (channelValues rows cols m2 ch).map Fin.val
      ↔ ∀ r c, r < rows → c < cols → m1.read r c ch = m2.read r c ch := by
  simp only [channelValues, List.map_map, List.map_inj_left, Function.comp]
  constructor
  · intro h r c hr hc
    exact Fin.ext (h (r, c) ((mem_rowMajor rows cols (r, c)).mpr ⟨hr, hc⟩))
  · intro h p hp
    obtain ⟨hr, hc⟩ := (mem_rowMajor rows cols p).mp hp
    rw [h p.1 p.2 hr hc]

theorem mem_channelValues (rows cols : Nat) (m : Mat) (r c ch : Nat) (hr : r < rows)
    (hc : c < cols) :
    (m.read r c ch).val ∈ (channelValues rows cols m ch).map Fin.val := by
  simp only [channelValues, List.map_map, List.mem_map, Function.comp]
  exact ⟨(r, c), (mem_rowMajor rows cols (r, c)).mpr ⟨hr, hc⟩, rfl⟩

/-! ## The dispatcher `ipcv::Quantize` -/

/-- C1 (counterexample): with variant igs and level count 0 the call divides by zero in
`256 / quantization_levels` and does not return at all, hence does not return true. -/
theorem C1_counterexample :
    ipcv.Quantize (onePixel 10 20 30) 0 QuantizationType.igs emptyMat zeroFill = none := by
  rfl

/-- C2: for every source image and every level count in `1..256`, the destination produced
by `ipcv::Quantize` with variant uniform equals, cell by cell, what `Uniform` writes for that
source and level count (into any destination of the right shape), and with variant igs it
equals what `Igs` writes. -/
theorem C2_quantize_dispatch (src dst dst0 : Mat) (fresh : Nat → Nat → Nat → Fin 256)
    (levels : Int) (h1 : 1 ≤ levels) (h2 : levels ≤ 256) (hs : SameShape src dst0) :
    (∃ res out, ipcv.Quantize src levels QuantizationType.uniform dst fresh = some res
        ∧ res.ok = true ∧ Uniform src levels dst0 = some out
        ∧ ∀ r c ch, r < src.rows → c < src.cols → ch < 3 →
            res.dst.read r c ch = out.read r c ch)
      ∧ (∃ res out, ipcv.Quantize src levels QuantizationType.igs dst fresh = some res
        ∧ res.ok = true ∧ Igs src levels dst0 = some out
        ∧ ∀ r c ch, r < src.rows → c < src.cols → ch < 3 →
            res.dst.read r c ch = out.read r c ch) := by
  obtain ⟨hc1, hc2, _⟩ := create_shape dst src.rows src.cols src.type fresh
  constructor
  · obtain ⟨q, hq, _, _, _, hqv, _⟩ :=
      Uniform_cells src (dst.create src.rows src.cols src.type fresh) levels h1 h2 hc1 hc2
    obtain ⟨u, hu, _, _, _, huv, _⟩ := Uniform_cells src dst0 levels h1 h2 hs.1 hs.2.1
    refine ⟨⟨true, q, []⟩, u, by simp [ipcv.Quantize, hq], rfl, hu, ?_⟩
    intro r c ch hr hc hch
    exact Fin.ext ((hqv r c ch hr hc hch).trans (huv r c ch hr hc hch).symm)
  · obtain ⟨q, hq, _, _, _, hqv, _⟩ :=
      Igs_scan src (dst.create src.rows src.cols src.type fresh) levels h1 h2 hc1 hc2
    obtain ⟨u, hu, _, _, _, huv, _⟩ := Igs_scan src dst0 levels h1 h2 hs.1 hs.2.1
    refine ⟨⟨true, q, []⟩, u, by simp [ipcv.Quantize, hq], rfl, hu, ?_⟩
    intro r c ch hr hc hch
    exact (channel_eq_iff src.rows src.cols q u ch).mp
      ((hqv ch hch).trans (huv ch hch).symm) r c hr hc

/-- C2 (witness): the 1 by 3 image of the second end-to-end scenario with level count 5. -/
theorem C2_quantize_dispatch_witness :
    ((1 : Int) ≤ 5 ∧ (5 : Int) ≤ 256
        ∧ SameShape (greyImage 1 3 [10, 250, 5]) (zeroMat 1 3))
      ∧ (∃ res out, ipcv.Quantize (greyImage 1 3 [10, 250, 5]) 5 QuantizationType.uniform
            emptyMat zeroFill = some res
        ∧ res.ok = true ∧ Uniform (greyImage 1 3 [10, 250, 5]) 5 (zeroMat 1 3) = some out
        ∧ ∀ r c ch, r < (greyImage 1 3 [10, 250, 5]).rows →
            c < (greyImage 1 3 [10, 250, 5]).cols → ch < 3 →
            res.dst.read r c ch = out.read r c ch)
      ∧ (∃ res out, ipcv.Quantize (greyImage 1 3 [10, 250, 5]) 5 QuantizationType.igs
            emptyMat zeroFill = some res
        ∧ res.ok = true ∧ Igs (greyImage 1 3 [10, 250, 5]) 5 (zeroMat 1 3) = some out
        ∧ ∀ r c ch, r < (greyImage 1 3 [10, 250, 5]).rows →
            c < (greyImage 1 3 [10, 250, 5]).cols → ch < 3 →
            res.dst.read r c ch = out.read r c ch) :=
  ⟨⟨by decide, by decide, ⟨rfl, rfl, rfl⟩⟩,
    C2_quantize_dispatch (greyImage 1 3 [10, 250, 5]) emptyMat (zeroMat 1 3) zeroFill 5
      (by decide) (by decide) ⟨rfl, rfl, rfl⟩⟩

/-- C3 (counterexample): with variant igs and level count 300 on a non-empty image the first
pixel step divides by zero; the call leaves no defined destination. -/
theorem C3_counterexample :
    ipcv.Quantize (onePixel 1 2 3) 300 QuantizationType.igs emptyMat zeroFill = none := by
  rfl

/-- C3 (amended): for every source image, level count and variant, a call of
`ipcv::Quantize` that completes leaves a destination with the rows, the columns and the pixel
type of the source; and the call does complete for every level count in `1..256` and, when
the variant is undefined, for every level count. -/
theorem C3_quantize_shape (src dst : Mat) (fresh : Nat → Nat → Nat → Fin 256) (levels : Int)
    (variant : QuantizationType) :
    (∀ res, ipcv.Quantize src levels variant dst fresh = some res →
        res.dst.rows = src.rows ∧ res.dst.cols = src.cols ∧ res.dst.type = src.type)
      ∧ (((1 ≤ levels ∧ levels ≤ 256) ∨ ∃ tag, variant = QuantizationType.unsupported tag) →
          ∃ res, ipcv.Quantize src levels variant dst fresh = some res) := by
  obtain ⟨c1, c2, c3⟩ := create_shape dst src.rows src.cols src.type fresh
  have hc1 := c1
  have hc2 := c2
  constructor
  · intro res h
    cases variant with
    | uniform =>
      cases hu : Uniform src levels (dst.create src.rows src.cols src.type fresh) with
      | none => simp [ipcv.Quantize, hu] at h
      | some out =>
        obtain ⟨s1, s2, s3⟩ := Uniform_shape _ _ _ _ hu
        simp only [ipcv.Quantize, hu, Option.map_some', Option.some.injEq] at h
        subst h
        exact ⟨s1.trans c1, s2.trans c2, s3.trans c3⟩
    | igs =>
      cases hu : Igs src levels (dst.create src.rows src.cols src.type fresh) with
      | none => simp [ipcv.Quantize, hu] at h
      | some out =>
        obtain ⟨s1, s2, s3⟩ := Igs_shape _ _ _ _ hu
        simp only [ipcv.Quantize, hu, Option.map_some', Option.some.injEq] at h
        subst h
        exact ⟨s1.trans c1, s2.trans c2, s3.trans c3⟩
    | unsupported tag =>
      simp only [ipcv.Quantize, Option.some.injEq] at h
      subst h
      exact ⟨c1, c2, c3⟩
  · rintro (⟨h1, h2⟩ | ⟨tag, rfl⟩)
    · cases variant with
      | uniform =>
        obtain ⟨out, ho, _⟩ :=
          Uniform_cells src (dst.create src.rows src.cols src.type fresh) levels h1 h2 hc1 hc2
        exact ⟨⟨true, out, []⟩, by simp [ipcv.Quantize, ho]⟩
      | igs =>
        obtain ⟨out, ho, _⟩ :=
          Igs_scan src (dst.create src.rows src.cols src.type fresh) levels h1 h2 hc1 hc2
        exact ⟨⟨true, out, []⟩, by simp [ipcv.Quantize, ho]⟩
      | unsupported tag => exact ⟨_, rfl⟩
    · exact ⟨_, rfl⟩

/-- C3 (witness): a 1 by 3 source quantized with variant igs and level count 5 into an empty
destination. -/
theorem C3_quantize_shape_witness :
    (∀ res, ipcv.Quantize (greyImage 1 3 [10, 250, 5]) 5 QuantizationType.igs emptyMat
          zeroFill = some res →
        res.dst.rows = 1 ∧ res.dst.cols = 3 ∧ res.dst.type = CV_8UC3)
      ∧ (((1 : Int) ≤ 5 ∧ (5 : Int) ≤ 256)
        ∧ ∃ res, ipcv.Quantize (greyImage 1 3 [10, 250, 5]) 5 QuantizationType.igs emptyMat
          zeroFill = some res) :=
  ⟨(C3_quantize_shape (greyImage 1 3 [10, 250, 5]) emptyMat zeroFill 5
      QuantizationType.igs).1,
    ⟨by decide, by decide⟩,
    (C3_quantize_shape (greyImage 1 3 [10, 250, 5]) emptyMat zeroFill 5
      QuantizationType.igs).2 (Or.inl ⟨by decide, by decide⟩)⟩

/-! ## `Uniform` -/

/-- The quotient of the spec, `floor (v / (256 / L))` with the exact quotient `256 / L`, is
`v * L / 256` in natural numbers. -/
theorem floor_exact_quotient (L v : Nat) (hL : 1 ≤ L) :
    ⌊(v : ℚ) / ((256 : ℚ) / (L : ℚ))⌋₊ = v * L / 256 := by
  have hLq : (L : ℚ) ≠ 0 := by exact_mod_cast (by omega : L ≠ 0)
  have e : (v : ℚ) / ((256 : ℚ) / (L : ℚ)) = ((v * L : Nat) : ℚ) / ((256 : Nat) : ℚ) := by
    push_cast
    field_simp
  rw [e, Nat.floor_div_eq_div]

/-- `Uniform` with a level count given as a natural number in `1..256`. -/
theorem Uniform_cells_nat (src dst : Mat) (L : Nat) (h1 : 1 ≤ L) (h2 : L ≤ 256)
    (hs : SameShape src dst) :
    ∃ out : Mat,
      Uniform src (L : Int) dst = some out
      ∧ ∀ r c ch, r < src.rows → c < src.cols → ch < 3 →
          (out.read r c ch).val = uniformCode L (src.read r c ch).val := by
  obtain ⟨out, ho, _, _, _, hv, _⟩ :=
    Uniform_cells src dst (L : Int) (by omega) (by omega) hs.1 hs.2.1
  exact ⟨out, ho, by simpa using hv⟩

/-- C4 (counterexample): for the source value 128 and level count 186 the exact quotient is
`128 / (256 / 186) = 93`, but `Uniform` stores 92: the double nearest to `256 / 186` is
slightly larger than `256 / 186`, and the rounded quotient stays below 93. -/
theorem C4_counterexample :
    (Uniform (onePixel 128 0 0) 186 (zeroMat 1 1)).map (fun out => (out.read 0 0 0).val)
        = some 92
      ∧ ⌊((128 : Nat) : ℚ) / ((256 : ℚ) / ((186 : Nat) : ℚ))⌋₊ = 93 := by
  constructor
  · decide
  · rw [floor_exact_quotient 186 128 (by decide)]

/-- C4 (amended): for every image, every level count `L` in `1..256` and every row, column
and channel, `Uniform` writes the truncated double precision quotient of `v` by the double
`256.0 / L`; this is `floor (v / (256 / L))` for the exact quotient `256 / L`, except for
`v = 128` with `L` one of 186, 198, 210, 234, 246, where it is one less. The written value
depends on nothing but `v` and `L`. The destination is one
created with the shape of the source, as `ipcv::Quantize` does before the call. -/
theorem C4_uniform_value (src dst : Mat) (L : Nat) (h1 : 1 ≤ L) (h2 : L ≤ 256)
    (hs : SameShape src dst) :
    ∃ out : Mat,
      Uniform src (L : Int) dst = some out
      ∧ ∀ r c ch, r < src.rows → c < src.cols → ch < 3 →
          (out.read r c ch).val
            = ⌊((src.read r c ch).val : ℚ) / ((256 : ℚ) / (L : ℚ))⌋₊
              - (if (src.read r c ch).val = 128
                    ∧ (L = 186 ∨ L = 198 ∨ L = 210 ∨ L = 234 ∨ L = 246) then 1 else 0) := by
  obtain ⟨out, ho, hv⟩ := Uniform_cells_nat src dst L h1 h2 hs
  refine ⟨out, ho, ?_⟩
  intro r c ch hr hc hch
  rw [hv r c ch hr hc hch, floor_exact_quotient L _ h1]
  rfl

/-- C4 (witness): the pixel (100, 150, 200) with level count 4 gives (1, 2, 3). -/
theorem C4_uniform_value_witness :
    (1 ≤ 4 ∧ 4 ≤ 256 ∧ SameShape (onePixel 100 150 200) (zeroMat 1 1))
      ∧ ∃ out : Mat,
        Uniform (onePixel 100 150 200) ((4 : Nat) : Int) (zeroMat 1 1) = some out
        ∧ (out.read 0 0 0).val = 1 ∧ (out.read 0 0 1).val = 2 ∧ (out.read 0 0 2).val = 3 := by
  obtain ⟨out, ho, hv⟩ :=
    C4_uniform_value (onePixel 100 150 200) (zeroMat 1 1) 4 (by decide) (by decide)
      ⟨rfl, rfl, rfl⟩
  refine ⟨⟨by decide, by decide, ⟨rfl, rfl, rfl⟩⟩, out, ho, ?_, ?_, ?_⟩
  · rw [hv 0 0 0 (by decide) (by decide) (by decide), floor_exact_quotient 4 _ (by decide)]
    decide
  · rw [hv 0 0 1 (by decide) (by decide) (by decide), floor_exact_quotient 4 _ (by decide)]
    decide
  · rw [hv 0 0 2 (by decide) (by decide) (by decide), floor_exact_quotient 4 _ (by decide)]
    decide

/-- C5: for every image and every level count `L` in `1..256`, every destination channel
value `d` written by `Uniform` satisfies `0 ≤ d ≤ L - 1`. The destination is one
created with the shape of the source, as `ipcv::Quantize` does before the call. -/
theorem C5_uniform_range (src dst : Mat) (L : Nat) (h1 : 1 ≤ L) (h2 : L ≤ 256)
    (hs : SameShape src dst) :
    ∃ out : Mat,
      Uniform src (L : Int) dst = some out
      ∧ ∀ r c ch, r < src.rows → c < src.cols → ch < 3 →
          0 ≤ (out.read r c ch).val ∧ (out.read r c ch).val ≤ L - 1 := by
  obtain ⟨out, ho, hv⟩ := Uniform_cells_nat src dst L h1 h2 hs
  refine ⟨out, ho, ?_⟩
  intro r c ch hr hc hch
  have := uniformCode_lt L (src.read r c ch).val h1 (src.read r c ch).isLt
  rw [hv r c ch hr hc hch]
  omega

/-- C5 (witness): a white pixel with level count 5 is stored as a value of at most 4. -/
theorem C5_uniform_range_witness :
    (1 ≤ 5 ∧ 5 ≤ 256 ∧ SameShape (onePixel 255 255 255) (zeroMat 1 1))
      ∧ ∃ out : Mat,
        Uniform (onePixel 255 255 255) ((5 : Nat) : Int) (zeroMat 1 1) = some out
        ∧ ∀ r c ch, r < (onePixel 255 255 255).rows → c < (onePixel 255 255 255).cols →
            ch < 3 → 0 ≤ (out.read r c ch).val ∧ (out.read r c ch).val ≤ 5 - 1 :=
  ⟨⟨by decide, by decide, ⟨rfl, rfl, rfl⟩⟩,
    C5_uniform_range (onePixel 255 255 255) (zeroMat 1 1) 5 (by decide) (by decide)
      ⟨rfl, rfl, rfl⟩⟩

/-- C10: uniform quantization is monotone. For every level count `L` in `1..256`, if the
source value of one cell is at most the source value of another cell (of the same or of
another image), the value `Uniform` writes for the first is at most the value it writes for
the second. The destination is one
created with the shape of the source, as `ipcv::Quantize` does before the call. -/
theorem C10_uniform_monotone (srcA dstA srcB dstB : Mat) (L : Nat) (h1 : 1 ≤ L) (h2 : L ≤ 256)
    (hsA : SameShape srcA dstA) (hsB : SameShape srcB dstB)
    (rA cA chA rB cB chB : Nat)
    (hrA : rA < srcA.rows) (hcA : cA < srcA.cols) (hchA : chA < 3)
    (hrB : rB < srcB.rows) (hcB : cB < srcB.cols) (hchB : chB < 3)
    (hab : (srcA.read rA cA chA).val ≤ (srcB.read rB cB chB).val) :
    ∃ outA outB : Mat,
      Uniform srcA (L : Int) dstA = some outA ∧ Uniform srcB (L : Int) dstB = some outB
      ∧ (outA.read rA cA chA).val ≤ (outB.read rB cB chB).val := by
  obtain ⟨outA, hoA, hvA⟩ := Uniform_cells_nat srcA dstA L h1 h2 hsA
  obtain ⟨outB, hoB, hvB⟩ := Uniform_cells_nat srcB dstB L h1 h2 hsB
  refine ⟨outA, outB, hoA, hoB, ?_⟩
  rw [hvA rA cA chA hrA hcA hchA, hvB rB cB chB hrB hcB hchB]
  exact uniformCode_mono L _ _ hab (srcB.read rB cB chB).isLt

/-- C10 (witness): with level count 186 the source values 128 and 129 of two channels of
one pixel. -/
theorem C10_uniform_monotone_witness :
    (1 ≤ 186 ∧ 186 ≤ 256 ∧ SameShape (onePixel 128 129 0) (zeroMat 1 1)
        ∧ ((onePixel 128 129 0).read 0 0 0).val ≤ ((onePixel 128 129 0).read 0 0 1).val)
      ∧ ∃ outA outB : Mat,
        Uniform (onePixel 128 129 0) ((186 : Nat) : Int) (zeroMat 1 1) = some outA
        ∧ Uniform (onePixel 128 129 0) ((186 : Nat) : Int) (zeroMat 1 1) = some outB
        ∧ (outA.read 0 0 0).val ≤ (outB.read 0 0 1).val :=
  ⟨⟨by decide, by decide, ⟨rfl, rfl, rfl⟩, by decide⟩,
    C10_uniform_monotone (onePixel 128 129 0) (zeroMat 1 1) (onePixel 128 129 0) (zeroMat 1 1)
      186 (by decide) (by decide) ⟨rfl, rfl, rfl⟩ ⟨rfl, rfl, rfl⟩ 0 0 0 0 0 1
      (by decide) (by decide) (by decide) (by decide) (by decide) (by decide) (by decide)⟩

/-! ## `Igs` -/

/-- `Igs` with a level count given as a natural number in `1..256`. -/
theorem Igs_scan_nat (src dst : Mat) (L : Nat) (h1 : 1 ≤ L) (h2 : L ≤ 256)
    (hs : SameShape src dst) :
    ∃ out : Mat,
      Igs src (L : Int) dst = some out
      ∧ ∀ ch, ch < 3 →
          (channelValues src.rows src.cols out ch).map Fin.val
            = (igsScan (256 / L) (igsCarry (256 / L) src.rows src.cols src ch)
                ((channelValues src.rows src.cols src ch).map Fin.val)).1 := by
  obtain ⟨out, ho, _, _, _, hv, _⟩ :=
    Igs_scan src dst (L : Int) (by omega) (by omega) hs.1 hs.2.1
  exact ⟨out, ho, by simpa using hv⟩

/-- The remainder carried into a channel depends on the earlier channels only. -/
theorem igsCarry_congr (d rows cols : Nat) (srcA srcB : Mat) (ch : Nat)
    (h : ∀ k, k < ch → channelValues rows cols srcA k = channelValues rows cols srcB k) :
    igsCarry d rows cols srcA ch = igsCarry d rows cols srcB ch := by
  induction ch with
  | zero => rfl
  | succ n ih =>
    simp only [igsCarry]
    rw [ih (fun k hk => h k (Nat.lt_succ_of_lt hk)), h n (Nat.lt_succ_self n)]

/-- C6 (counterexample): in the 1 by 1 image with pixel (127, 1, 0) and level count 2
(divisor 128), `Igs` writes 1 to channel 1, because the remainder 127 left by channel 0 is
added to the value 1; the scan of channel 1 alone, started with remainder 0, gives 0. -/
theorem C6_counterexample :
    (Igs (onePixel 127 1 0) 2 (zeroMat 1 1)).map
        (fun out => (channelValues 1 1 out 1).map Fin.val) = some [1]
      ∧ (igsScan (256 / 2) 0 ((channelValues 1 1 (onePixel 127 1 0) 1).map Fin.val)).1
        = [0] := by
  constructor <;> decide

/-- C6 (amended): for every image, every level count `L` in `1..256` and each channel `c`
in `{0, 1, 2}`, the values `Igs` writes to channel `c` are the result of scanning the
source values of channel `c` in row-major order, each step computing
`adjusted = min (v + remainder) 255`, writing `adjusted / d` and carrying `adjusted % d`
with `d = 256 / L` by integer division, where the remainder starts at 0 for channel 0 and,
for channels 1 and 2, at the remainder left by the scan of the previous channel. The destination is one
created with the shape of the source, as `ipcv::Quantize` does before the call. -/
theorem C6_igs_channel_scan (src dst : Mat) (L : Nat) (h1 : 1 ≤ L) (h2 : L ≤ 256)
    (hs : SameShape src dst) :
    ∃ out : Mat,
      Igs src (L : Int) dst = some out
      ∧ igsCarry (256 / L) src.rows src.cols src 0 = 0
      ∧ (∀ c, igsCarry (256 / L) src.rows src.cols src (c + 1)
            = (igsScan (256 / L) (igsCarry (256 / L) src.rows src.cols src c)
                ((channelValues src.rows src.cols src c).map Fin.val)).2)
      ∧ ∀ c, c < 3 →
          (channelValues src.rows src.cols out c).map Fin.val
            = (igsScan (256 / L) (igsCarry (256 / L) src.rows src.cols src c)
                ((channelValues src.rows src.cols src c).map Fin.val)).1 := by
  obtain ⟨out, ho, hv⟩ := Igs_scan_nat src dst L h1 h2 hs
  exact ⟨out, ho, rfl, fun _ => rfl, hv⟩

/-- C6 (witness): a 1 by 3 image whose channels hold [10, 250, 5], with level count 5,
yields [0, 5, 0] in channel 0. -/
theorem C6_igs_channel_scan_witness :
    (1 ≤ 5 ∧ 5 ≤ 256 ∧ SameShape (greyImage 1 3 [10, 250, 5]) (zeroMat 1 3))
      ∧ ∃ out : Mat,
        Igs (greyImage 1 3 [10, 250, 5]) ((5 : Nat) : Int) (zeroMat 1 3) = some out
        ∧ (channelValues 1 3 out 0).map Fin.val = [0, 5, 0] := by
  obtain ⟨out, ho, _, _, hv⟩ :=
    C6_igs_channel_scan (greyImage 1 3 [10, 250, 5]) (zeroMat 1 3) 5 (by decide) (by decide)
      ⟨rfl, rfl, rfl⟩
  refine ⟨⟨by decide, by decide, ⟨rfl, rfl, rfl⟩⟩, out, ho, ?_⟩
  have h0 := hv 0 (by decide)
  exact h0.trans (by decide)

/-- C7 (counterexample): the 1 by 1 images with pixels (127, 1, 0) and (0, 1, 0) differ in
channel 0 only, yet with level count 2 `Igs` writes 1 to channel 1 of the first and 0 to
channel 1 of the second. -/
theorem C7_counterexample :
    (∀ r c ch, ch ≠ 0 → (onePixel 127 1 0).read r c ch = (onePixel 0 1 0).read r c ch)
      ∧ (Igs (onePixel 127 1 0) 2 (zeroMat 1 1)).map (fun out => (out.read 0 0 1).val)
        = some 1
      ∧ (Igs (onePixel 0 1 0) 2 (zeroMat 1 1)).map (fun out => (out.read 0 0 1).val)
        = some 0 := by
  refine ⟨?_, by decide, by decide⟩
  intro r c ch hch
  simp [onePixel, Mat.read, hch]

/-- C7 (amended): for every level count `L` in `1..256` and every two source images of the
same shape that differ only in the values of one channel `c`, the values `Igs` writes to the
channels before `c` are identical for both images. (The channels after `c` can differ: the
remainder left by channel `c` is carried into them.) The destination is one
created with the shape of the source, as `ipcv::Quantize` does before the call. -/
theorem C7_igs_earlier_channels (srcA dstA srcB dstB : Mat) (L : Nat) (h1 : 1 ≤ L)
    (h2 : L ≤ 256) (hsA : SameShape srcA dstA) (hsB : SameShape srcB dstB) (c : Nat)
    (hrows : srcA.rows = srcB.rows) (hcols : srcA.cols = srcB.cols)
    (hdiff : ∀ r col ch, ch ≠ c → srcA.read r col ch = srcB.read r col ch) :
    ∃ outA outB : Mat,
      Igs srcA (L : Int) dstA = some outA ∧ Igs srcB (L : Int) dstB = some outB
      ∧ ∀ ch, ch < c → ch < 3 → ∀ r col, r < srcA.rows → col < srcA.cols →
          outA.read r col ch = outB.read r col ch := by
  obtain ⟨outA, hoA, hvA⟩ := Igs_scan_nat srcA dstA L h1 h2 hsA
  obtain ⟨outB, hoB, hvB⟩ := Igs_scan_nat srcB dstB L h1 h2 hsB
  refine ⟨outA, outB, hoA, hoB, ?_⟩
  have hchan : ∀ k, k ≠ c →
      channelValues srcA.rows srcA.cols srcA k = channelValues srcA.rows srcA.cols srcB k := by
    intro k hk
    simp only [channelValues, List.map_inj_left]
    intro p _
    exact hdiff p.1 p.2 k hk
  intro ch hch hch3 r col hr hcol
  refine (channel_eq_iff srcA.rows srcA.cols outA outB ch).mp ?_ r col hr hcol
  have hB := hvB ch hch3
  rw [← hrows, ← hcols] at hB
  rw [hvA ch hch3, hB, hchan ch (Nat.ne_of_lt hch),
    igsCarry_congr (256 / L) srcA.rows srcA.cols srcA srcB ch
      (fun k hk => hchan k (Nat.ne_of_lt (Nat.lt_trans hk hch)))]

/-- C7 (witness): two 1 by 1 images that differ in channel 1 only, with level count 2;
channel 0 of the two results is the same. -/
theorem C7_igs_earlier_channels_witness :
    (1 ≤ 2 ∧ 2 ≤ 256 ∧ SameShape (onePixel 127 1 0) (zeroMat 1 1)
        ∧ SameShape (onePixel 127 200 0) (zeroMat 1 1)
        ∧ (onePixel 127 1 0).rows = (onePixel 127 200 0).rows
        ∧ (onePixel 127 1 0).cols = (onePixel 127 200 0).cols
        ∧ ∀ r col ch, ch ≠ 1 →
            (onePixel 127 1 0).read r col ch = (onePixel 127 200 0).read r col ch)
      ∧ ∃ outA outB : Mat,
        Igs (onePixel 127 1 0) ((2 : Nat) : Int) (zeroMat 1 1) = some outA
        ∧ Igs (onePixel 127 200 0) ((2 : Nat) : Int) (zeroMat 1 1) = some outB
        ∧ ∀ ch, ch < 1 → ch < 3 → ∀ r col, r < (onePixel 127 1 0).rows →
            col < (onePixel 127 1 0).cols → outA.read r col ch = outB.read r col ch := by
  have hd : ∀ r col ch, ch ≠ 1 →
      (onePixel 127 1 0).read r col ch = (onePixel 127 200 0).read r col ch := by
    intro r col ch hch
    simp [onePixel, Mat.read, hch]
  exact ⟨⟨by decide, by decide, ⟨rfl, rfl, rfl⟩, ⟨rfl, rfl, rfl⟩, rfl, rfl, hd⟩,
    C7_igs_earlier_channels (onePixel 127 1 0) (zeroMat 1 1) (onePixel 127 200 0)
      (zeroMat 1 1) 2 (by decide) (by decide) ⟨rfl, rfl, rfl⟩ ⟨rfl, rfl, rfl⟩ 1 rfl rfl hd⟩

/-- C8: for every image and every level count `L` in `1..256`, every destination channel
value `d` written by `Igs` satisfies `0 ≤ d ≤ 255 / divisor`, where `divisor = 256 / L` and
both divisions are integer divisions. The destination is one
created with the shape of the source, as `ipcv::Quantize` does before the call. -/
theorem C8_igs_range (src dst : Mat) (L : Nat) (h1 : 1 ≤ L) (h2 : L ≤ 256)
    (hs : SameShape src dst) :
    ∃ out : Mat,
      Igs src (L : Int) dst = some out
      ∧ ∀ r c ch, r < src.rows → c < src.cols → ch < 3 →
          0 ≤ (out.read r c ch).val ∧ (out.read r c ch).val ≤ 255 / (256 / L) := by
  obtain ⟨out, ho, hv⟩ := Igs_scan_nat src dst L h1 h2 hs
  refine ⟨out, ho, ?_⟩
  intro r c ch hr hc hch
  refine ⟨Nat.zero_le _, ?_⟩
  have hm := mem_channelValues src.rows src.cols out r c ch hr hc
  rw [hv ch hch] at hm
  exact igsScan_le _ _ _ _ hm

/-- C8 (witness): the 1 by 3 image of the second end-to-end scenario with level count 5,
where the bound is `255 / 51 = 5`. -/
theorem C8_igs_range_witness :
    (1 ≤ 5 ∧ 5 ≤ 256 ∧ SameShape (greyImage 1 3 [10, 250, 5]) (zeroMat 1 3))
      ∧ ∃ out : Mat,
        Igs (greyImage 1 3 [10, 250, 5]) ((5 : Nat) : Int) (zeroMat 1 3) = some out
        ∧ ∀ r c ch, r < (greyImage 1 3 [10, 250, 5]).rows →
            c < (greyImage 1 3 [10, 250, 5]).cols → ch < 3 →
            0 ≤ (out.read r c ch).val ∧ (out.read r c ch).val ≤ 255 / (256 / 5) :=
  ⟨⟨by decide, by decide, ⟨rfl, rfl, rfl⟩⟩,
    C8_igs_range (greyImage 1 3 [10, 250, 5]) (zeroMat 1 3) 5 (by decide) (by decide)
      ⟨rfl, rfl, rfl⟩⟩

/-- C9 (counterexample): with level count 5 (divisor 51) `Igs` can write each of the six
values 0, 1, 2, 3, 4, 5, so no set of at most 5 values contains everything it writes. -/
theorem C9_counterexample :
    ¬ ∃ S : Finset Nat, S.card ≤ 5
        ∧ ∀ (src dst out : Mat) (r c ch : Nat), SameShape src dst →
            r < src.rows → c < src.cols → ch < 3 →
            Igs src 5 dst = some out → (out.read r c ch).val ∈ S := by
  rintro ⟨S, hcard, hS⟩
  have key : ∀ (v : Fin 256) (q : Nat),
      (Igs (onePixel v 0 0) 5 (zeroMat 1 1)).map (fun o => (o.read 0 0 0).val) = some q →
        q ∈ S := by
    intro v q h
    cases ho : Igs (onePixel v 0 0) 5 (zeroMat 1 1) with
    | none => rw [ho] at h; simp at h
    | some out =>
      rw [ho] at h
      simp only [Option.map_some', Option.some.injEq] at h
      rw [← h]
      exact hS (onePixel v 0 0) (zeroMat 1 1) out 0 0 0 ⟨rfl, rfl, rfl⟩
        Nat.zero_lt_one Nat.zero_lt_one (by decide) ho
  have hsub : ({0, 1, 2, 3, 4, 5} : Finset Nat) ⊆ S := by
    intro q hq
    simp only [Finset.mem_insert, Finset.mem_singleton] at hq
    rcases hq with rfl | rfl | rfl | rfl | rfl | rfl
    · exact key 0 0 (by decide)
    · exact key 51 1 (by decide)
    · exact key 102 2 (by decide)
    · exact key 153 3 (by decide)
    · exact key 204 4 (by decide)
    · exact key 255 5 (by decide)
  have h6 := Finset.card_le_card hsub
  have : ({0, 1, 2, 3, 4, 5} : Finset Nat).card = 6 := by decide
  omega

/-- C9 (amended): for every level count `L` in `1..256`, over all source images the values
that `Uniform` can leave in a destination channel form a set of at most `L` elements, and
the values that `Igs` can leave there form a set of at most `255 / (256 / L) + 1` elements
(integer divisions), a number that exceeds `L` for some level counts. The destination is one
created with the shape of the source, as `ipcv::Quantize` does before the call. -/
theorem C9_level_count_bound (L : Nat) (h1 : 1 ≤ L) (h2 : L ≤ 256) :
    (∃ S : Finset Nat, S.card ≤ L
        ∧ ∀ (src dst out : Mat) (r c ch : Nat), SameShape src dst →
            r < src.rows → c < src.cols → ch < 3 →
            Uniform src (L : Int) dst = some out → (out.read r c ch).val ∈ S)
      ∧ (∃ S : Finset Nat, S.card ≤ 255 / (256 / L) + 1
        ∧ ∀ (src dst out : Mat) (r c ch : Nat), SameShape src dst →
            r < src.rows → c < src.cols → ch < 3 →
            Igs src (L : Int) dst = some out → (out.read r c ch).val ∈ S) := by
  constructor
  · refine ⟨Finset.range L, by simp, ?_⟩
    intro src dst out r c ch hs hr hc hch ho
    obtain ⟨out1, ho1, hv⟩ := Uniform_cells_nat src dst L h1 h2 hs
    rw [ho] at ho1
    obtain rfl := Option.some.inj ho1
    rw [Finset.mem_range, hv r c ch hr hc hch]
    exact uniformCode_lt L _ h1 (src.read r c ch).isLt
  · refine ⟨Finset.range (255 / (256 / L) + 1), by simp, ?_⟩
    intro src dst out r c ch hs hr hc hch ho
    obtain ⟨out1, ho1, hv⟩ := Igs_scan_nat src dst L h1 h2 hs
    rw [ho] at ho1
    obtain rfl := Option.some.inj ho1
    have hm := mem_channelValues src.rows src.cols out r c ch hr hc
    rw [hv ch hch] at hm
    exact Finset.mem_range.mpr (Nat.lt_succ_of_le (igsScan_le _ _ _ _ hm))

/-- C9 (witness): level count 5, where `Uniform` stays within 5 values and `Igs` within
`255 / 51 + 1 = 6`. -/
theorem C9_level_count_bound_witness :
    (1 ≤ 5 ∧ 5 ≤ 256)
      ∧ (∃ S : Finset Nat, S.card ≤ 5
        ∧ ∀ (src dst out : Mat) (r c ch : Nat), SameShape src dst →
            r < src.rows → c < src.cols → ch < 3 →
            Uniform src ((5 : Nat) : Int) dst = some out → (out.read r c ch).val ∈ S)
      ∧ (∃ S : Finset Nat, S.card ≤ 255 / (256 / 5) + 1
        ∧ ∀ (src dst out : Mat) (r c ch : Nat), SameShape src dst →
            r < src.rows → c < src.cols → ch < 3 →
            Igs src ((5 : Nat) : Int) dst = some out → (out.read r c ch).val ∈ S) :=
  ⟨⟨by decide, by decide⟩, C9_level_count_bound 5 (by decide) (by decide)⟩

/-! ## `Uniform` at the ends of the range of level counts, and its image -/

theorem uniformCode_256 (v : Nat) : uniformCode 256 v = v := by
  unfold uniformCode
  rw [if_neg (by omega), Nat.mul_div_cancel v (by norm_num)]
  rfl

theorem uniformCode_one (v : Nat) (hv : v < 256) : uniformCode 1 v = 0 := by
  unfold uniformCode
  rw [if_neg (by omega)]
  omega

/-- C11: with level count 256, `Uniform` is the identity: for every image, every destination
channel value equals the source channel value in the same cell. The destination is one
created with the shape of the source, as `ipcv::Quantize` does before the call. -/
theorem C11_uniform_identity (src dst : Mat) (hs : SameShape src dst) :
    ∃ out : Mat,
      Uniform src 256 dst = some out
      ∧ ∀ r c ch, r < src.rows → c < src.cols → ch < 3 →
          out.read r c ch = src.read r c ch := by
  obtain ⟨out, ho, hv⟩ := Uniform_cells_nat src dst 256 (by norm_num) (by norm_num) hs
  refine ⟨out, ho, ?_⟩
  intro r c ch hr hc hch
  exact Fin.ext ((hv r c ch hr hc hch).trans (uniformCode_256 _))

/-- C11 (witness): the pixel (100, 150, 200) is reproduced. -/
theorem C11_uniform_identity_witness :
    SameShape (onePixel 100 150 200) (zeroMat 1 1)
      ∧ ∃ out : Mat,
        Uniform (onePixel 100 150 200) 256 (zeroMat 1 1) = some out
        ∧ out.read 0 0 0 = 100 ∧ out.read 0 0 1 = 150 ∧ out.read 0 0 2 = 200 := by
  obtain ⟨out, ho, hv⟩ := C11_uniform_identity (onePixel 100 150 200) (zeroMat 1 1)
    ⟨rfl, rfl, rfl⟩
  exact ⟨⟨rfl, rfl, rfl⟩, out, ho,
    hv 0 0 0 (by decide) (by decide) (by decide),
    hv 0 0 1 (by decide) (by decide) (by decide),
    hv 0 0 2 (by decide) (by decide) (by decide)⟩

/-- C12: with level count 1, `Uniform` maps every source channel value in `0..255` to 0, so
the whole destination image is zero. The destination is one created with the shape of the
source, as `ipcv::Quantize` does before the call. -/
theorem C12_uniform_one_level (src dst : Mat) (hs : SameShape src dst) :
    ∃ out : Mat,
      Uniform src 1 dst = some out
      ∧ ∀ r c ch, r < src.rows → c < src.cols → ch < 3 → out.read r c ch = 0 := by
  obtain ⟨out, ho, hv⟩ := Uniform_cells_nat src dst 1 (by norm_num) (by norm_num) hs
  refine ⟨out, ho, ?_⟩
  intro r c ch hr hc hch
  exact Fin.ext ((hv r c ch hr hc hch).trans (uniformCode_one _ (src.read r c ch).isLt))

/-- C12 (witness): a white pixel becomes (0, 0, 0). -/
theorem C12_uniform_one_level_witness :
    SameShape (onePixel 255 255 255) (zeroMat 1 1)
      ∧ ∃ out : Mat,
        Uniform (onePixel 255 255 255) 1 (zeroMat 1 1) = some out
        ∧ ∀ r c ch, r < (onePixel 255 255 255).rows → c < (onePixel 255 255 255).cols →
            ch < 3 → out.read r c ch = 0 :=
  ⟨⟨rfl, rfl, rfl⟩, C12_uniform_one_level (onePixel 255 255 255) (zeroMat 1 1) ⟨rfl, rfl, rfl⟩⟩

/-- Every code below `L` is the closed form of some source value: the least `v` with
`256 * k ≤ v * L`, or 129 where that value is 128 and the double precision quotient falls
short. -/
theorem uniformCode_onto (L k : Nat) (h1 : 1 ≤ L) (h2 : L ≤ 256) (hk : k < L) :
    ∃ v, v < 256 ∧ uniformCode L v = k := by
  by_cases hE : (L = 186 ∨ L = 198 ∨ L = 210 ∨ L = 234 ∨ L = 246) ∧ k = L / 2
  · obtain ⟨hL, rfl⟩ := hE
    refine ⟨129, by norm_num, ?_⟩
    rcases hL with rfl | rfl | rfl | rfl | rfl <;> decide
  · have hmod := Nat.mod_lt (256 * k + L - 1) (show 0 < L by omega)
    have hdm := Nat.div_add_mod (256 * k + L - 1) L
    obtain ⟨p, hp⟩ : ∃ p, p = L * ((256 * k + L - 1) / L) := ⟨_, rfl⟩
    rw [← hp] at hdm
    have hlo : 256 * k ≤ p := by omega
    have hhi : p < 256 * k + 256 := by omega
    have hv : (256 * k + L - 1) / L < 256 := by
      by_contra hge
      have h256 : L * 256 ≤ L * ((256 * k + L - 1) / L) :=
        Nat.mul_le_mul_left L (not_lt.mp hge)
      have hkL : 256 * (k + 1) ≤ 256 * L := Nat.mul_le_mul_left 256 hk
      omega
    have hq : (256 * k + L - 1) / L * L / 256 = k := by
      rw [Nat.mul_comm, ← hp]
      omega
    refine ⟨(256 * k + L - 1) / L, hv, ?_⟩
    unfold uniformCode
    rw [hq]
    split_ifs with hc
    · exfalso
      obtain ⟨hv128, hL⟩ := hc
      rw [hv128] at hq
      exact hE ⟨hL, by omega⟩
    · rfl

/-- C20: `Uniform` uses every output code. For every level count `L` in `1..256` and every
code `k` in `0..L-1` there is a source channel value `v` in `0..255` that `Uniform` maps to
`k`; the codes that `Uniform` can write, over all images, are exactly the `L` codes
`0, ..., L-1`. -/
theorem C20_uniform_onto (L : Nat) (h1 : 1 ≤ L) (h2 : L ≤ 256) :
    (∀ k, k < L → ∃ v : Fin 256, ∃ out : Mat,
        Uniform (onePixel v 0 0) (L : Int) (zeroMat 1 1) = some out
        ∧ (out.read 0 0 0).val = k)
      ∧ ∃ S : Finset Nat, S.card = L ∧ ∀ k, k ∈ S ↔
          ∃ (src dst out : Mat) (r c ch : Nat), SameShape src dst
            ∧ r < src.rows ∧ c < src.cols ∧ ch < 3
            ∧ Uniform src (L : Int) dst = some out ∧ (out.read r c ch).val = k := by
  have onto : ∀ k, k < L → ∃ v : Fin 256, ∃ out : Mat,
      Uniform (onePixel v 0 0) (L : Int) (zeroMat 1 1) = some out
      ∧ (out.read 0 0 0).val = k := by
    intro k hk
    obtain ⟨v, hv, hcode⟩ := uniformCode_onto L k h1 h2 hk
    obtain ⟨out, ho, hval⟩ :=
      Uniform_cells_nat (onePixel ⟨v, hv⟩ 0 0) (zeroMat 1 1) L h1 h2 ⟨rfl, rfl, rfl⟩
    refine ⟨⟨v, hv⟩, out, ho, ?_⟩
    rw [hval 0 0 0 Nat.zero_lt_one Nat.zero_lt_one (by decide)]
    exact hcode
  refine ⟨onto, Finset.range L, Finset.card_range L, ?_⟩
  intro k
  rw [Finset.mem_range]
  constructor
  · intro hk
    obtain ⟨v, out, ho, hval⟩ := onto k hk
    exact ⟨onePixel v 0 0, zeroMat 1 1, out, 0, 0, 0, ⟨rfl, rfl, rfl⟩,
      Nat.zero_lt_one, Nat.zero_lt_one, by decide, ho, hval⟩
  · rintro ⟨src, dst, out, r, c, ch, hs, hr, hc, hch, ho, hval⟩
    obtain ⟨out1, ho1, hv⟩ := Uniform_cells_nat src dst L h1 h2 hs
    rw [ho] at ho1
    obtain rfl := Option.some.inj ho1
    rw [← hval, hv r c ch hr hc hch]
    exact uniformCode_lt L _ h1 (src.read r c ch).isLt

/-- C20 (witness): level count 186, where the code 93 is not reached from the source value
128 but is reached from 129. -/
theorem C20_uniform_onto_witness :
    (1 ≤ 186 ∧ 186 ≤ 256 ∧ 93 < 186)
      ∧ ∃ v : Fin 256, ∃ out : Mat,
        Uniform (onePixel v 0 0) ((186 : Nat) : Int) (zeroMat 1 1) = some out
        ∧ (out.read 0 0 0).val = 93 :=
  ⟨⟨by decide, by decide, by decide⟩,
    (C20_uniform_onto 186 (by decide) (by decide)).1 93 (by decide)⟩

/-! ## The pixel step of `Igs` -/

/-- One pixel step of `Igs` for a level count in `1..256` and a nonnegative remainder: it
returns, and quotient and remainder are those of the clamped sum by the divisor. -/
theorem igsPixel_spec (levels : Int) (h1 : 1 ≤ levels) (h2 : levels ≤ 256) (v : Fin 256)
    (r : Int) (hr : 0 ≤ r) :
    ∃ q t : Int, igsPixel (Int.tdiv 256 levels) r v = some (q, t)
      ∧ q * Int.tdiv 256 levels + t = min ((v.val : Int) + r) 255
      ∧ 0 ≤ q ∧ q ≤ 255 ∧ 0 ≤ t ∧ t < Int.tdiv 256 levels := by
  obtain ⟨hdiv, hpos⟩ := igs_divisor levels h1 h2
  have hrn : r = (r.toNat : Int) := (Int.toNat_of_nonneg hr).symm
  rw [hdiv, hrn, igsPixel_nat _ _ hpos]
  refine ⟨_, _, rfl, ?_, ?_, ?_, ?_, ?_⟩
  · have hdm := Nat.div_add_mod (min (v.val + r.toNat) 255) (256 / levels.toNat)
    have hc : ((min (v.val + r.toNat) 255 : Nat) : Int)
        = min ((v.val : Int) + (r.toNat : Int)) 255 := by
      push_cast
      rfl
    rw [← hc, mul_comm]
    exact_mod_cast hdm
  · exact Int.natCast_nonneg _
  · have : min (v.val + r.toNat) 255 / (256 / levels.toNat) ≤ 255 :=
      le_trans (Nat.div_le_self _ _) (min_le_right _ _)
    exact_mod_cast this
  · exact Int.natCast_nonneg _
  · exact_mod_cast Nat.mod_lt _ hpos

/-- C13: in every `Igs` pixel step, for every level count `L` in `1..256`, source value `v`
in `0..255` and incoming remainder `r ≥ 0`, the quotient `q` written and the remainder `r'`
carried are both computed from the clamped value: `q * divisor + r' = min (v + r) 255` with
`0 ≤ r' < divisor`, never from the unclamped `v + r`. -/
theorem C13_igs_step_clamped (levels : Int) (h1 : 1 ≤ levels) (h2 : levels ≤ 256)
    (v : Fin 256) (r : Int) (hr : 0 ≤ r) :
    ∃ q t : Int, igsPixel (Int.tdiv 256 levels) r v = some (q, t)
      ∧ q * Int.tdiv 256 levels + t = min ((v.val : Int) + r) 255
      ∧ 0 ≤ t ∧ t < Int.tdiv 256 levels := by
  obtain ⟨q, t, hp, he, _, _, ht0, ht⟩ := igsPixel_spec levels h1 h2 v r hr
  exact ⟨q, t, hp, he, ht0, ht⟩

/-- C13 (witness): level count 5 (divisor 51), source value 255 and remainder 10 give the
quotient 5 and the remainder 0, not those of 265. -/
theorem C13_igs_step_clamped_witness :
    ((1 : Int) ≤ 5 ∧ (5 : Int) ≤ 256 ∧ (0 : Int) ≤ 10)
      ∧ Int.tdiv 256 5 = 51
      ∧ ∃ q t : Int, igsPixel (Int.tdiv 256 5) 10 255 = some (q, t)
        ∧ q * Int.tdiv 256 5 + t = min (((255 : Fin 256).val : Int) + 10) 255
        ∧ 0 ≤ t ∧ t < Int.tdiv 256 5 ∧ q = 5 ∧ t = 0 := by
  obtain ⟨q, t, hp, he, ht0, ht⟩ :=
    C13_igs_step_clamped 5 (by decide) (by decide) 255 10 (by decide)
  have hc : igsPixel (Int.tdiv 256 5) 10 255 = some (5, 0) := by decide
  rw [hc] at hp
  have hq : q = 5 := (congrArg Prod.fst (Option.some.inj hp)).symm
  have htz : t = 0 := (congrArg Prod.snd (Option.some.inj hp)).symm
  exact ⟨⟨by decide, by decide, by decide⟩, by decide, q, t, by rw [hc, hq, htz], he, ht0, ht,
    hq, htz⟩

/-- The loops of a non-empty image start with channel 0 of the pixel in row 0, column 0. -/
theorem scanOrder_head (rows cols : Nat) (hr : 0 < rows) (hc : 0 < cols) :
    ∃ tl, scanOrder rows cols = (0, 0, 0) :: tl := by
  obtain ⟨n, rfl⟩ : ∃ n, rows = n + 1 := ⟨rows - 1, by omega⟩
  obtain ⟨m, rfl⟩ : ∃ m, cols = m + 1 := ⟨cols - 1, by omega⟩
  have h3 : List.range 3 = [0, 1, 2] := by decide
  unfold scanOrder
  rw [h3, List.flatMap_cons, List.range_succ_eq_map n, List.flatMap_cons,
    List.range_succ_eq_map m, List.map_cons]
  exact ⟨_, rfl⟩

/-- The integer divisor of `Igs` for a positive level count. -/
theorem igs_divisor_zero_iff (levels : Int) (hpos : 0 < levels) :
    (Int.tdiv 256 levels = 0 ↔ 256 < levels) ∧ (levels ≤ 256 → 1 ≤ Int.tdiv 256 levels) := by
  rw [Int.tdiv_eq_ediv (by norm_num) (le_of_lt hpos)]
  have hle : levels ≤ 256 → 1 ≤ 256 / levels := by
    intro h
    rw [Int.le_ediv_iff_mul_le hpos]
    omega
  refine ⟨⟨?_, ?_⟩, hle⟩
  · intro h0
    by_contra hn
    have := hle (not_lt.mp hn)
    omega
  · intro h
    exact Int.ediv_eq_zero_of_lt (by norm_num) h

/-- C16: for every positive level count `L`, the integer divisor `256 / L` of `Igs` is zero
exactly when `L > 256`. For every `L` in `1..256` the divisor is at least 1, no pixel step
divides by zero, and `Igs` runs to its end on every image; for every `L > 256` the first
pixel step of any non-empty image divides by zero and `Igs` does not complete. -/
theorem C16_igs_zero_divisor (levels : Int) (hpos : 0 < levels) :
    (Int.tdiv 256 levels = 0 ↔ 256 < levels)
      ∧ (levels ≤ 256 →
          1 ≤ Int.tdiv 256 levels
          ∧ (∀ (r : Int) (v : Fin 256), igsPixel (Int.tdiv 256 levels) r v ≠ none)
          ∧ ∀ src dst : Mat, SameShape src dst → ∃ out, Igs src levels dst = some out)
      ∧ (256 < levels →
          ∀ src dst : Mat, 0 < src.rows → 0 < src.cols →
            igsPixel (Int.tdiv 256 levels) 0 (src.read 0 0 0) = none
            ∧ Igs src levels dst = none) := by
  obtain ⟨hiff, hle⟩ := igs_divisor_zero_iff levels hpos
  refine ⟨hiff, ?_, ?_⟩
  · intro h256
    have hd := hle h256
    refine ⟨hd, ?_, ?_⟩
    · intro r v
      have hne : Int.tdiv 256 levels ≠ 0 := by omega
      simp [igsPixel, hne]
    · intro src dst hs
      obtain ⟨out, ho, _⟩ := Igs_scan src dst levels (by omega) h256 hs.1 hs.2.1
      exact ⟨out, ho⟩
  · intro hgt src dst hr hc
    have hz : Int.tdiv 256 levels = 0 := hiff.mpr hgt
    have hpix : ∀ (r : Int) (v : Fin 256), igsPixel 0 r v = none := by
      intro r v
      simp [igsPixel]
    refine ⟨by rw [hz]; exact hpix _ _, ?_⟩
    obtain ⟨tl, htl⟩ := scanOrder_head src.rows src.cols hr hc
    have hne : levels ≠ 0 := by omega
    unfold Igs
    rw [if_neg hne]
    simp only [hz]
    rw [loops_eq_scan (fun channel row col st => igsStep src 0 channel row col st), htl,
      List.foldlM_cons]
    simp [igsStep, hpix]

/-- C16 (witness): level count 256 has divisor 1; level count 257 has divisor 0 and `Igs`
fails on a 1 by 1 image. -/
theorem C16_igs_zero_divisor_witness :
    ((0 : Int) < 256 ∧ (0 : Int) < 257)
      ∧ (1 ≤ Int.tdiv 256 256
          ∧ (∀ (r : Int) (v : Fin 256), igsPixel (Int.tdiv 256 256) r v ≠ none)
          ∧ ∀ src dst : Mat, SameShape src dst → ∃ out, Igs src 256 dst = some out)
      ∧ (igsPixel (Int.tdiv 256 257) 0 ((onePixel 1 2 3).read 0 0 0) = none
          ∧ Igs (onePixel 1 2 3) 257 (zeroMat 1 1) = none) :=
  ⟨⟨by decide, by decide⟩,
    (C16_igs_zero_divisor 256 (by decide)).2.1 (by decide),
    (C16_igs_zero_divisor 257 (by decide)).2.2 (by decide) (onePixel 1 2 3) (zeroMat 1 1)
      Nat.zero_lt_one Nat.zero_lt_one⟩

/-! ## The run of `Igs` as one scan -/

theorem igsScan_remainder_lt (d : Nat) (hd : 0 < d) (vs : List Nat) (r : Nat) (hr : r < d) :
    (igsScan d r vs).2 < d := by
  induction vs generalizing r with
  | nil => exact hr
  | cons v vs ih => exact ih _ (Nat.mod_lt _ hd)

/-- `Igs` is the pass of its loop body over `scanOrder`, started with remainder 0. -/
theorem Igs_eq_fold (src dst : Mat) (levels : Int) (hne : levels ≠ 0) :
    Igs src levels dst
      = ((scanOrder src.rows src.cols).foldlM
          (fun st cell => igsStep src (Int.tdiv 256 levels) cell.1 cell.2.1 cell.2.2 st)
          ((0 : Int), dst)).map Prod.snd := by
  unfold Igs
  rw [if_neg hne]
  simp only
  rw [loops_eq_scan (fun channel row col st =>
    igsStep src (Int.tdiv 256 levels) channel row col st)]

/-- C19: `Igs` keeps its carried remainder bounded. For every image and level count `L` in
`1..256`, the state reached after any number `k` of pixel steps exists and its remainder `r`
satisfies `0 ≤ r < divisor` (`divisor = 256 / L`); this is the remainder after step `k` and
before step `k + 1`. Hence, for the next source value `v`, the unclamped sum `v + r` is at
most `255 + divisor - 1`, and the step returns a quotient in `0..255`, which the store to an
unsigned 8-bit cell leaves unchanged, and a remainder that is again in `0 ..< divisor`. The
destination is one created with the shape of the source, as `ipcv::Quantize` does before the
call. -/
theorem C19_igs_remainder_bounded (src dst : Mat) (L : Nat) (h1 : 1 ≤ L) (h2 : L ≤ 256)
    (hs : SameShape src dst) (k : Nat) :
    Igs src (L : Int) dst
        = ((scanOrder src.rows src.cols).foldlM
            (fun st cell => igsStep src (Int.tdiv 256 L) cell.1 cell.2.1 cell.2.2 st)
            ((0 : Int), dst)).map Prod.snd
      ∧ ∃ (r : Int) (m : Mat),
        ((scanOrder src.rows src.cols).take k).foldlM
            (fun st cell => igsStep src (Int.tdiv 256 L) cell.1 cell.2.1 cell.2.2 st)
            ((0 : Int), dst) = some (r, m)
        ∧ 0 ≤ r ∧ r < Int.tdiv 256 L
        ∧ ∀ v : Fin 256,
            (v.val : Int) + r ≤ 255 + Int.tdiv 256 L - 1
            ∧ ∃ q t : Int, igsPixel (Int.tdiv 256 L) r v = some (q, t)
              ∧ 0 ≤ q ∧ q ≤ 255 ∧ ((toUchar q).val : Int) = q
              ∧ 0 ≤ t ∧ t < Int.tdiv 256 L := by
  obtain ⟨hdiv, hpos⟩ := igs_divisor (L : Int) (by omega) (by omega)
  rw [Int.toNat_ofNat] at hdiv hpos
  refine ⟨Igs_eq_fold src dst L (by omega), ?_⟩
  obtain ⟨m, hm, _⟩ := igs_fold src (256 / L) hpos ((scanOrder src.rows src.cols).take k)
    ((scanOrder_nodup _ _).sublist (List.take_sublist _ _)) 0 dst
    (fun cell hc => scanOrder_inside src dst hs.1 hs.2.1 cell (List.mem_of_mem_take hc))
  have hlt := igsScan_remainder_lt (256 / L) hpos
    (((scanOrder src.rows src.cols).take k).map (cellValue src)) 0 hpos
  refine ⟨_, m, by rw [hdiv]; exact hm, Int.natCast_nonneg _, by rw [hdiv]; exact_mod_cast hlt,
    ?_⟩
  intro v
  have hv : (v.val : Int) ≤ 255 := by
    have := v.isLt
    omega
  have hr : ((igsScan (256 / L) 0
      (((scanOrder src.rows src.cols).take k).map (cellValue src))).2 : Int)
      < Int.tdiv 256 L := by rw [hdiv]; exact_mod_cast hlt
  refine ⟨by omega, ?_⟩
  obtain ⟨q, t, hp, _, hq0, hq, ht0, ht⟩ :=
    igsPixel_spec (L : Int) (by omega) (by omega) v _ (Int.natCast_nonneg _)
  refine ⟨q, t, hp, hq0, hq, ?_, ht0, ht⟩
  have hqn : q = (q.toNat : Int) := (Int.toNat_of_nonneg hq0).symm
  rw [hqn, toUchar_natCast _ (by omega)]

/-- C19 (witness): the 1 by 3 image of the second end-to-end scenario with level count 5,
after two pixel steps. -/
theorem C19_igs_remainder_bounded_witness :
    (1 ≤ 5 ∧ 5 ≤ 256 ∧ SameShape (greyImage 1 3 [10, 250, 5]) (zeroMat 1 3))
      ∧ ∃ (r : Int) (m : Mat),
        ((scanOrder (greyImage 1 3 [10, 250, 5]).rows (greyImage 1 3 [10, 250, 5]).cols).take
            2).foldlM
            (fun st cell => igsStep (greyImage 1 3 [10, 250, 5]) (Int.tdiv 256 (5 : Nat))
              cell.1 cell.2.1 cell.2.2 st)
            ((0 : Int), zeroMat 1 3) = some (r, m)
        ∧ 0 ≤ r ∧ r < Int.tdiv 256 (5 : Nat) :=
  ⟨⟨by decide, by decide, ⟨rfl, rfl, rfl⟩⟩,
    let ⟨r, m, h, h0, hlt, _⟩ :=
      (C19_igs_remainder_bounded (greyImage 1 3 [10, 250, 5]) (zeroMat 1 3) 5 (by decide)
        (by decide) ⟨rfl, rfl, rfl⟩ 2).2
    ⟨r, m, h, h0, hlt⟩⟩

/-- C18: `Igs` initialises its remainder once per call, before the channel loop. For every
image and level count `L` in `1..256`, its output (channel 0 in row-major order, then
channel 1, then channel 2) is the single scan of the concatenated source sequence with the
remainder set to 0 only before the first pixel of channel 0; so channel 1 is scanned from the
remainder left by the last pixel of channel 0, and channel 2 from the remainder left by the
last pixel of channel 1. The destination is one created with the shape of the source, as
`ipcv::Quantize` does before the call. -/
theorem C18_igs_single_scan (src dst : Mat) (L : Nat) (h1 : 1 ≤ L) (h2 : L ≤ 256)
    (hs : SameShape src dst) :
    ∃ out : Mat,
      Igs src (L : Int) dst = some out
      ∧ (channelValues src.rows src.cols out 0 ++ channelValues src.rows src.cols out 1
            ++ channelValues src.rows src.cols out 2).map Fin.val
          = (igsScan (256 / L) 0
              ((channelValues src.rows src.cols src 0 ++ channelValues src.rows src.cols src 1
                ++ channelValues src.rows src.cols src 2).map Fin.val)).1
      ∧ (channelValues src.rows src.cols out 1).map Fin.val
          = (igsScan (256 / L)
              (igsScan (256 / L) 0 ((channelValues src.rows src.cols src 0).map Fin.val)).2
              ((channelValues src.rows src.cols src 1).map Fin.val)).1
      ∧ (channelValues src.rows src.cols out 2).map Fin.val
          = (igsScan (256 / L)
              (igsScan (256 / L)
                (igsScan (256 / L) 0 ((channelValues src.rows src.cols src 0).map Fin.val)).2
                ((channelValues src.rows src.cols src 1).map Fin.val)).2
              ((channelValues src.rows src.cols src 2).map Fin.val)).1 := by
  obtain ⟨out, ho, hv⟩ := Igs_scan_nat src dst L h1 h2 hs
  have c0 := hv 0 (by decide)
  have c1 := hv 1 (by decide)
  have c2 := hv 2 (by decide)
  simp only [igsCarry] at c0 c1 c2
  refine ⟨out, ho, ?_, c1, c2⟩
  simp only [List.map_append, igsScan_append, c0, c1, c2, List.append_assoc]

/-- C18 (witness): the 1 by 1 image with pixel (127, 1, 0) and level count 2: the single
scan of [127, 1, 0] gives [0, 1, 0]. -/
theorem C18_igs_single_scan_witness :
    (1 ≤ 2 ∧ 2 ≤ 256 ∧ SameShape (onePixel 127 1 0) (zeroMat 1 1))
      ∧ ∃ out : Mat,
        Igs (onePixel 127 1 0) ((2 : Nat) : Int) (zeroMat 1 1) = some out
        ∧ (channelValues 1 1 out 0 ++ channelValues 1 1 out 1
            ++ channelValues 1 1 out 2).map Fin.val = [0, 1, 0] := by
  obtain ⟨out, ho, hall, _, _⟩ :=
    C18_igs_single_scan (onePixel 127 1 0) (zeroMat 1 1) 2 (by decide) (by decide)
      ⟨rfl, rfl, rfl⟩
  exact ⟨⟨by decide, by decide, ⟨rfl, rfl, rfl⟩⟩, out, ho, hall.trans (by decide)⟩

/-- C15: `Igs` has a real sequential dependency inside a channel. With level count 2
(divisor 128) the 1 by 2 images whose channel 0 holds [127, 1] and [0, 1], and whose other
channels are zero, differ only in the value of pixel (0, 0) of channel 0; `Igs` writes 1
and 0 to the later pixel (0, 1) of channel 0, because the remainder 127 is carried into it
in the first image. -/
theorem C15_igs_sequential_dependency :
    ∃ L : Nat, 1 ≤ L ∧ L ≤ 256 ∧ ∃ srcA srcB dst outA outB : Mat,
      SameShape srcA dst ∧ SameShape srcB dst
      ∧ srcA.rows = 1 ∧ srcA.cols = 2
      ∧ srcA.read 0 0 0 ≠ srcB.read 0 0 0
      ∧ (∀ r c ch, r < 1 → c < 2 → ch < 3 → (r, c, ch) ≠ (0, 0, 0) →
          srcA.read r c ch = srcB.read r c ch)
      ∧ Igs srcA (L : Int) dst = some outA ∧ Igs srcB (L : Int) dst = some outB
      ∧ outA.read 0 1 0 ≠ outB.read 0 1 0 := by
  obtain ⟨outA, hoA, _⟩ := Igs_scan_nat (imageOf 1 2 [127, 1] [0, 0] [0, 0]) (zeroMat 1 2) 2
    (by decide) (by decide) ⟨rfl, rfl, rfl⟩
  obtain ⟨outB, hoB, _⟩ := Igs_scan_nat (imageOf 1 2 [0, 1] [0, 0] [0, 0]) (zeroMat 1 2) 2
    (by decide) (by decide) ⟨rfl, rfl, rfl⟩
  have hA : (Igs (imageOf 1 2 [127, 1] [0, 0] [0, 0]) ((2 : Nat) : Int) (zeroMat 1 2)).map
      (fun o => o.read 0 1 0) = some 1 := by decide
  have hB : (Igs (imageOf 1 2 [0, 1] [0, 0] [0, 0]) ((2 : Nat) : Int) (zeroMat 1 2)).map
      (fun o => o.read 0 1 0) = some 0 := by decide
  rw [hoA] at hA
  rw [hoB] at hB
  have hA1 : outA.read 0 1 0 = 1 := Option.some.inj hA
  have hB0 : outB.read 0 1 0 = 0 := Option.some.inj hB
  refine ⟨2, by decide, by decide, imageOf 1 2 [127, 1] [0, 0] [0, 0],
    imageOf 1 2 [0, 1] [0, 0] [0, 0], zeroMat 1 2, outA, outB, ⟨rfl, rfl, rfl⟩,
    ⟨rfl, rfl, rfl⟩, rfl, rfl, by decide, ?_, hoA, hoB, ?_⟩
  · intro r c ch hr hc hch hne
    interval_cases r
    interval_cases c <;> interval_cases ch <;> first | rfl | exact absurd rfl hne
  · rw [hA1, hB0]
    decide

/-! ## What `ipcv::Quantize` leaves in the destination -/

/-- C14: for every source image and level count, `ipcv::Quantize` called with an undefined
variant returns false and no quantizer writes any destination pixel: the destination is
exactly what the allocation step `dst.create` leaves, that is the destination as it was when
it already had the shape and type of the source, and the newly allocated buffer
otherwise. -/
theorem C14_quantize_unsupported (src dst : Mat) (fresh : Nat → Nat → Nat → Fin 256)
    (levels : Int) (tag : Nat) :
    ∃ res, ipcv.Quantize src levels (QuantizationType.unsupported tag) dst fresh = some res
      ∧ res.ok = false
      ∧ res.dst = dst.create src.rows src.cols src.type fresh
      ∧ (SameShape src dst → res.dst = dst)
      ∧ (¬ SameShape src dst →
          res.dst = { rows := src.rows, cols := src.cols, type := src.type, data := fresh }) := by
  refine ⟨_, rfl, rfl, rfl, ?_, ?_⟩
  · intro hs
    show dst.create src.rows src.cols src.type fresh = dst
    unfold Mat.create
    exact if_pos hs
  · intro hs
    show dst.create src.rows src.cols src.type fresh = _
    unfold Mat.create
    exact if_neg hs

/-- C14 (witness): a 1 by 1 destination holding (9, 9, 9) is left as it is. -/
theorem C14_quantize_unsupported_witness :
    SameShape (onePixel 1 2 3) (onePixel 9 9 9)
      ∧ ∃ res, ipcv.Quantize (onePixel 1 2 3) 4 (QuantizationType.unsupported 0)
          (onePixel 9 9 9) zeroFill = some res
        ∧ res.ok = false ∧ res.dst = onePixel 9 9 9 :=
  ⟨⟨rfl, rfl, rfl⟩,
    let ⟨res, h, hok, _, hsame, _⟩ :=
      C14_quantize_unsupported (onePixel 1 2 3) (onePixel 9 9 9) zeroFill 4 0
    ⟨res, h, hok, hsame ⟨rfl, rfl, rfl⟩⟩⟩

/-- C17: for the two defined variants and every level count in `1..256`, `ipcv::Quantize`
overwrites every channel of every destination pixel: two calls on the same source and level
count return true and leave destinations of the same shape with the same value in every
cell, whatever the two destinations held before the call and whatever a fresh allocation
contains. -/
theorem C17_quantize_overwrites (src dstA dstB : Mat)
    (freshA freshB : Nat → Nat → Nat → Fin 256) (levels : Int) (h1 : 1 ≤ levels)
    (h2 : levels ≤ 256) :
    (∃ resA resB,
        ipcv.Quantize src levels QuantizationType.uniform dstA freshA = some resA
        ∧ ipcv.Quantize src levels QuantizationType.uniform dstB freshB = some resB
        ∧ resA.ok = true ∧ resB.ok = true
        ∧ resA.dst.rows = resB.dst.rows ∧ resA.dst.cols = resB.dst.cols
        ∧ resA.dst.type = resB.dst.type
        ∧ ∀ r c ch, r < resA.dst.rows → c < resA.dst.cols → ch < 3 →
            resA.dst.read r c ch = resB.dst.read r c ch)
      ∧ (∃ resA resB,
        ipcv.Quantize src levels QuantizationType.igs dstA freshA = some resA
        ∧ ipcv.Quantize src levels QuantizationType.igs dstB freshB = some resB
        ∧ resA.ok = true ∧ resB.ok = true
        ∧ resA.dst.rows = resB.dst.rows ∧ resA.dst.cols = resB.dst.cols
        ∧ resA.dst.type = resB.dst.type
        ∧ ∀ r c ch, r < resA.dst.rows → c < resA.dst.cols → ch < 3 →
            resA.dst.read r c ch = resB.dst.read r c ch) := by
  obtain ⟨a1, a2, a3⟩ := create_shape dstA src.rows src.cols src.type freshA
  obtain ⟨b1, b2, b3⟩ := create_shape dstB src.rows src.cols src.type freshB
  constructor
  · obtain ⟨p, hp, p1, p2, p3, hpv, _⟩ :=
      Uniform_cells src (dstA.create src.rows src.cols src.type freshA) levels h1 h2 a1 a2
    obtain ⟨q, hq, q1, q2, q3, hqv, _⟩ :=
      Uniform_cells src (dstB.create src.rows src.cols src.type freshB) levels h1 h2 b1 b2
    refine ⟨⟨true, p, []⟩, ⟨true, q, []⟩, by simp [ipcv.Quantize, hp],
      by simp [ipcv.Quantize, hq], rfl, rfl, ?_, ?_, ?_, ?_⟩
    · exact (p1.trans a1).trans (q1.trans b1).symm
    · exact (p2.trans a2).trans (q2.trans b2).symm
    · exact (p3.trans a3).trans (q3.trans b3).symm
    · intro r c ch hr hc hch
      have hr1 : r < src.rows := (p1.trans a1) ▸ hr
      have hc1 : c < src.cols := (p2.trans a2) ▸ hc
      exact Fin.ext ((hpv r c ch hr1 hc1 hch).trans (hqv r c ch hr1 hc1 hch).symm)
  · obtain ⟨p, hp, p1, p2, p3, hpv, _⟩ :=
      Igs_scan src (dstA.create src.rows src.cols src.type freshA) levels h1 h2 a1 a2
    obtain ⟨q, hq, q1, q2, q3, hqv, _⟩ :=
      Igs_scan src (dstB.create src.rows src.cols src.type freshB) levels h1 h2 b1 b2
    refine ⟨⟨true, p, []⟩, ⟨true, q, []⟩, by simp [ipcv.Quantize, hp],
      by simp [ipcv.Quantize, hq], rfl, rfl, ?_, ?_, ?_, ?_⟩
    · exact (p1.trans a1).trans (q1.trans b1).symm
    · exact (p2.trans a2).trans (q2.trans b2).symm
    · exact (p3.trans a3).trans (q3.trans b3).symm
    · intro r c ch hr hc hch
      have hr1 : r < src.rows := (p1.trans a1) ▸ hr
      have hc1 : c < src.cols := (p2.trans a2) ▸ hc
      exact (channel_eq_iff src.rows src.cols p q ch).mp
        ((hpv ch hch).trans (hqv ch hch).symm) r c hr1 hc1

/-- C17 (witness): the 1 by 3 image of the second end-to-end scenario with level count 5,
quantized once into an empty destination and once into a buffer of the same shape that holds
other values. -/
theorem C17_quantize_overwrites_witness :
    ((1 : Int) ≤ 5 ∧ (5 : Int) ≤ 256)
      ∧ ∃ resA resB,
        ipcv.Quantize (greyImage 1 3 [10, 250, 5]) 5 QuantizationType.igs emptyMat zeroFill
          = some resA
        ∧ ipcv.Quantize (greyImage 1 3 [10, 250, 5]) 5 QuantizationType.igs
            (greyImage 1 3 [7, 8, 9]) zeroFill = some resB
        ∧ resA.ok = true ∧ resB.ok = true
        ∧ resA.dst.rows = resB.dst.rows ∧ resA.dst.cols = resB.dst.cols
        ∧ resA.dst.type = resB.dst.type
        ∧ ∀ r c ch, r < resA.dst.rows → c < resA.dst.cols → ch < 3 →
            resA.dst.read r c ch = resB.dst.read r c ch :=
  ⟨⟨by decide, by decide⟩,
    (C17_quantize_overwrites (greyImage 1 3 [10, 250, 5]) emptyMat (greyImage 1 3 [7, 8, 9])
      zeroFill zeroFill 5 (by decide) (by decide)).2⟩

/-! ## Completion of the quantizers for any level count -/

theorem normalize_ne_zero (m : Nat) (e : Int) (hm : m ≠ 0) : (Dbl.normalize m e).1 ≠ 0 := by
  unfold Dbl.normalize
  have key : ∀ (l : List Nat) (p : Nat × Int), p.1 ≠ 0 →
      (l.foldl (fun (p : Nat × Int) (s : Nat) =>
        if p.1 < 2 ^ (53 - s) then (p.1 * 2 ^ s, p.2 - s) else p) p).1 ≠ 0 := by
    intro l
    induction l with
    | nil => intro p hp; exact hp
    | cons s l ih =>
      intro p hp
      rw [List.foldl_cons]
      apply ih
      split_ifs
      · exact Nat.mul_ne_zero hp (by positivity)
      · exact hp
  exact key _ _ hm

/-- The divisor `256.0 / quantization_levels` of `Uniform` exists for every nonzero level
count. -/
theorem uniform_divisor_exists (levels : Int) (hne : levels ≠ 0) :
    ∃ d : Dbl, Dbl.div (Dbl.ofInt 256) (Dbl.ofInt levels) = some d := by
  have hm : (Dbl.ofInt levels).mant ≠ 0 := by
    unfold Dbl.ofInt
    rw [if_neg hne]
    exact normalize_ne_zero _ _ (Int.natAbs_ne_zero.mpr hne)
  unfold Dbl.div
  rw [if_neg hm]
  by_cases ha : (Dbl.ofInt 256).mant = 0
  · rw [if_pos ha]
    exact ⟨_, rfl⟩
  · rw [if_neg ha]
    simp only
    by_cases hq : roundHalfEven ((Dbl.ofInt 256).mant
        * 2 ^ (52 + (if (Dbl.ofInt 256).mant < (Dbl.ofInt levels).mant then 1 else 0)))
        (Dbl.ofInt levels).mant = 2 ^ 53
    · rw [if_pos hq]
      exact ⟨_, rfl⟩
    · rw [if_neg hq]
      exact ⟨_, rfl⟩

/-- A pass whose body returns on every state that satisfies an invariant, and keeps the
invariant, returns. -/
theorem foldlM_total {σ α : Type} (P : σ → Prop) (f : σ → α → Option σ) (l : List α)
    (hf : ∀ s, P s → ∀ a, a ∈ l → ∃ t, f s a = some t ∧ P t) (s : σ) (hs : P s) :
    ∃ t, l.foldlM f s = some t ∧ P t := by
  induction l generalizing s with
  | nil => exact ⟨s, rfl, hs⟩
  | cons a l ih =>
    obtain ⟨u, hu, hPu⟩ := hf s hs a (List.mem_cons_self _ _)
    obtain ⟨t, ht, hPt⟩ := ih (fun s hs b hb => hf s hs b (List.mem_cons_of_mem _ hb)) u hPu
    exact ⟨t, by rw [List.foldlM_cons, hu]; exact ht, hPt⟩

/-- `Uniform` completes for every nonzero level count once the quotient of every pixel of
the image narrows to an unsigned 8-bit value. -/
theorem Uniform_total (src dst : Mat) (levels : Int) (hne : levels ≠ 0)
    (hr : dst.rows = src.rows) (hc : dst.cols = src.cols)
    (hpix : ∀ r c ch, r < src.rows → c < src.cols → ch < 3 →
      uniformValue levels (src.read r c ch) ≠ none) :
    ∃ out, Uniform src levels dst = some out := by
  obtain ⟨d, hd⟩ := uniform_divisor_exists levels hne
  have hstep : ∀ s : Mat, (s.rows = src.rows ∧ s.cols = src.cols) →
      ∀ cell, cell ∈ scanOrder src.rows src.cols →
      ∃ t : Mat, (uniformPixel d (src.read cell.2.1 cell.2.2 cell.1)).bind
          (fun quantized_val => s.write cell.2.1 cell.2.2 cell.1 quantized_val) = some t
        ∧ (t.rows = src.rows ∧ t.cols = src.cols) := by
    intro s hs cell hcell
    obtain ⟨a, b, c⟩ := (mem_scanOrder _ _ _).mp hcell
    have hp := hpix cell.2.1 cell.2.2 cell.1 b c a
    simp only [uniformValue, hd, Option.bind_eq_bind, Option.some_bind] at hp
    obtain ⟨q, hq⟩ := Option.ne_none_iff_exists'.mp hp
    refine ⟨s.update cell.2.1 cell.2.2 cell.1 q, ?_, hs⟩
    rw [hq, Option.some_bind]
    exact write_inside _ _ _ _ _ ⟨hs.1 ▸ b, hs.2 ▸ c, a⟩
  obtain ⟨t, ht, _⟩ := foldlM_total
    (fun m : Mat => m.rows = src.rows ∧ m.cols = src.cols)
    (fun (s : Mat) (cell : Nat × Nat × Nat) =>
      (uniformPixel d (src.read cell.2.1 cell.2.2 cell.1)).bind
        (fun quantized_val => s.write cell.2.1 cell.2.2 cell.1 quantized_val))
    (scanOrder src.rows src.cols) hstep dst ⟨hr, hc⟩
  unfold Uniform
  simp only [hd, Option.bind_eq_bind, Option.some_bind]
  rw [loops_eq_scan (fun channel row col (dst : Mat) =>
    (uniformPixel d (src.read row col channel)).bind
      (fun quantized_val => dst.write row col channel quantized_val))]
  exact ⟨t, ht⟩

/-- `Igs` completes on every image when the level count and the divisor are nonzero, and on
an empty image when the level count is nonzero. -/
theorem Igs_total (src dst : Mat) (levels : Int) (hne : levels ≠ 0)
    (hr : dst.rows = src.rows) (hc : dst.cols = src.cols)
    (hd : Int.tdiv 256 levels ≠ 0 ∨ src.rows = 0 ∨ src.cols = 0) :
    ∃ out, Igs src levels dst = some out := by
  have hstep : ∀ s : Int × Mat, (s.2.rows = src.rows ∧ s.2.cols = src.cols) →
      ∀ cell, cell ∈ scanOrder src.rows src.cols →
      ∃ t : Int × Mat,
        igsStep src (Int.tdiv 256 levels) cell.1 cell.2.1 cell.2.2 s = some t
        ∧ (t.2.rows = src.rows ∧ t.2.cols = src.cols) := by
    intro s hs cell hcell
    obtain ⟨a, b, c⟩ := (mem_scanOrder _ _ _).mp hcell
    have hdz : Int.tdiv 256 levels ≠ 0 := by
      rcases hd with h | h | h
      · exact h
      · omega
      · omega
    obtain ⟨qr, hqr⟩ : ∃ qr, igsPixel (Int.tdiv 256 levels) s.1
        (src.read cell.2.1 cell.2.2 cell.1) = some qr := by
      unfold igsPixel
      simp only
      rw [if_neg hdz]
      exact ⟨_, rfl⟩
    refine ⟨(qr.2, s.2.update cell.2.1 cell.2.2 cell.1 (toUchar qr.1)), ?_, hs⟩
    simp only [igsStep, hqr, Option.some_bind,
      write_inside _ _ _ _ _ ⟨hs.1 ▸ b, hs.2 ▸ c, a⟩, Option.map_some']
  obtain ⟨t, ht, _⟩ := foldlM_total
    (fun st : Int × Mat => st.2.rows = src.rows ∧ st.2.cols = src.cols)
    (fun st cell => igsStep src (Int.tdiv 256 levels) cell.1 cell.2.1 cell.2.2 st)
    (scanOrder src.rows src.cols) hstep ((0 : Int), dst) ⟨hr, hc⟩
  rw [Igs_eq_fold src dst levels hne, ht]
  exact ⟨t.2, rfl⟩

/-- `Igs` has no result when the level count is zero, and on a non-empty image when the
divisor is zero: the first division divides by zero. -/
theorem Igs_none (src dst : Mat) (levels : Int)
    (h : levels = 0 ∨ (Int.tdiv 256 levels = 0 ∧ 0 < src.rows ∧ 0 < src.cols)) :
    Igs src levels dst = none := by
  by_cases hne : levels = 0
  · unfold Igs
    rw [if_pos hne]
  · obtain ⟨hz, hr, hc⟩ := h.resolve_left hne
    obtain ⟨tl, htl⟩ := scanOrder_head src.rows src.cols hr hc
    rw [Igs_eq_fold src dst levels hne, hz, htl, List.foldlM_cons]
    simp [igsStep, igsPixel]

/-- The nonzero level counts with a nonzero integer divisor are those from -256 to 256. -/
theorem igs_divisor_ne_zero_iff (levels : Int) (hne : levels ≠ 0) :
    Int.tdiv 256 levels ≠ 0 ↔ -256 ≤ levels ∧ levels ≤ 256 := by
  rcases lt_or_gt_of_ne hne with hneg | hpos
  · have h := (igs_divisor_zero_iff (-levels) (by omega)).1
    have e : Int.tdiv 256 levels = -Int.tdiv 256 (-levels) := by
      rw [Int.tdiv_neg, neg_neg]
    rw [e, neg_ne_zero, ne_eq, h]
    omega
  · have h := (igs_divisor_zero_iff levels hpos).1
    rw [ne_eq, h]
    omega

/-- C1 (amended): for every source image and every level count, `ipcv::Quantize` returns
false, without aborting, for every variant other than uniform and igs, and never returns
false for uniform or igs: a call that completes returns true. With igs the call completes
exactly when the level count is nonzero and either the integer divisor `256 / L` is nonzero
(`L` in `-256..-1` or `1..256`) or the image is empty; otherwise it divides by zero and does
not return. With uniform the call completes for every level count in `1..256`, and for
every nonzero level count for which the quotient of each pixel of the image narrows to an
unsigned 8-bit value. -/
theorem C1_quantize_returns (src dst : Mat) (fresh : Nat → Nat → Nat → Fin 256)
    (levels : Int) :
    (∀ tag, ∃ res, ipcv.Quantize src levels (QuantizationType.unsupported tag) dst fresh
        = some res ∧ res.ok = false)
      ∧ (∀ res, ipcv.Quantize src levels QuantizationType.uniform dst fresh = some res →
          res.ok = true)
      ∧ (∀ res, ipcv.Quantize src levels QuantizationType.igs dst fresh = some res →
          res.ok = true)
      ∧ (levels ≠ 0 ∧ (Int.tdiv 256 levels ≠ 0 ∨ src.rows = 0 ∨ src.cols = 0) →
          ∃ res, ipcv.Quantize src levels QuantizationType.igs dst fresh = some res
            ∧ res.ok = true)
      ∧ (¬ (levels ≠ 0 ∧ (Int.tdiv 256 levels ≠ 0 ∨ src.rows = 0 ∨ src.cols = 0)) →
          ipcv.Quantize src levels QuantizationType.igs dst fresh = none)
      ∧ (levels ≠ 0 → (Int.tdiv 256 levels ≠ 0 ↔ -256 ≤ levels ∧ levels ≤ 256))
      ∧ (1 ≤ levels ∧ levels ≤ 256 →
          ∃ res, ipcv.Quantize src levels QuantizationType.uniform dst fresh = some res
            ∧ res.ok = true)
      ∧ (levels ≠ 0 →
          (∀ r c ch, r < src.rows → c < src.cols → ch < 3 →
            uniformValue levels (src.read r c ch) ≠ none) →
          ∃ res, ipcv.Quantize src levels QuantizationType.uniform dst fresh = some res
            ∧ res.ok = true) := by
  obtain ⟨hc1, hc2, _⟩ := create_shape dst src.rows src.cols src.type fresh
  refine ⟨fun tag => ⟨_, rfl, rfl⟩, ?_, ?_, ?_, ?_, igs_divisor_ne_zero_iff levels, ?_, ?_⟩
  · intro res h
    cases hu : Uniform src levels (dst.create src.rows src.cols src.type fresh) with
    | none => simp [ipcv.Quantize, hu] at h
    | some out =>
      simp only [ipcv.Quantize, hu, Option.map_some', Option.some.injEq] at h
      rw [← h]
  · intro res h
    cases hu : Igs src levels (dst.create src.rows src.cols src.type fresh) with
    | none => simp [ipcv.Quantize, hu] at h
    | some out =>
      simp only [ipcv.Quantize, hu, Option.map_some', Option.some.injEq] at h
      rw [← h]
  · rintro ⟨hne, hd⟩
    obtain ⟨out, ho⟩ :=
      Igs_total src (dst.create src.rows src.cols src.type fresh) levels hne hc1 hc2 hd
    exact ⟨⟨true, out, []⟩, by simp [ipcv.Quantize, ho], rfl⟩
  · intro hn
    have hcase : levels = 0 ∨ (Int.tdiv 256 levels = 0 ∧ 0 < src.rows ∧ 0 < src.cols) := by
      by_cases h0 : levels = 0
      · exact Or.inl h0
      · right
        by_contra hcon
        apply hn
        refine ⟨h0, ?_⟩
        by_cases hz : Int.tdiv 256 levels = 0
        · by_cases hr : src.rows = 0
          · exact Or.inr (Or.inl hr)
          · by_cases hc : src.cols = 0
            · exact Or.inr (Or.inr hc)
            · exact absurd ⟨hz, Nat.pos_of_ne_zero hr, Nat.pos_of_ne_zero hc⟩ hcon
        · exact Or.inl hz
    have hi := Igs_none src (dst.create src.rows src.cols src.type fresh) levels hcase
    simp [ipcv.Quantize, hi]
  · rintro ⟨h1, h2⟩
    obtain ⟨out, ho, _⟩ :=
      Uniform_cells src (dst.create src.rows src.cols src.type fresh) levels h1 h2 hc1 hc2
    exact ⟨⟨true, out, []⟩, by simp [ipcv.Quantize, ho], rfl⟩
  · intro hne hpix
    obtain ⟨out, ho⟩ :=
      Uniform_total src (dst.create src.rows src.cols src.type fresh) levels hne hc1 hc2 hpix
    exact ⟨⟨true, out, []⟩, by simp [ipcv.Quantize, ho], rfl⟩

/-- C1 (witness): a 1 by 1 image. An undefined variant with level count 0 returns false;
igs with level count -4 (divisor -64) and uniform with level count 4 return true. -/
theorem C1_quantize_returns_witness :
    (∃ res, ipcv.Quantize (onePixel 100 150 200) 0 (QuantizationType.unsupported 7)
        emptyMat zeroFill = some res ∧ res.ok = false)
      ∧ (((-4 : Int) ≠ 0 ∧ Int.tdiv 256 (-4) ≠ 0)
        ∧ ∃ res, ipcv.Quantize (onePixel 100 150 200) (-4) QuantizationType.igs emptyMat
            zeroFill = some res ∧ res.ok = true)
      ∧ (((1 : Int) ≤ 4 ∧ (4 : Int) ≤ 256)
        ∧ ∃ res, ipcv.Quantize (onePixel 100 150 200) 4 QuantizationType.uniform emptyMat
            zeroFill = some res ∧ res.ok = true) :=
  ⟨(C1_quantize_returns (onePixel 100 150 200) emptyMat zeroFill 0).1 7,
    ⟨⟨by decide, by decide⟩,
      (C1_quantize_returns (onePixel 100 150 200) emptyMat zeroFill (-4)).2.2.2.1
        ⟨by decide, Or.inl (by decide)⟩⟩,
    ⟨⟨by decide, by decide⟩,
      (C1_quantize_returns (onePixel 100 150 200) emptyMat zeroFill 4).2.2.2.2.2.2.1
        ⟨by decide, by decide⟩⟩⟩
